import Mathlib

/-!
Verification of the lexrec record lexer (package lexrec).

The Go source is shallowly embedded: the mutable Lexer struct becomes a
Lean structure threaded through pure functions, the item channel becomes
an output list carried in the state, the io.Reader becomes a list of
read results, and Go ints become Lean Int.  Loops are compiled to
fuel-indexed structural recursions; each wrapper passes a fuel bound
that provably dominates the loop's termination measure, so the
fuel-out branch is unreachable and the functions compute the exact
behaviour of the Go loops.
-/

namespace Lexrec

/-- Result of one io.Reader.Read call: a byte chunk with a nil error, a
clean end-of-source signal (io.EOF), or a read error with a message.
An exhausted list behaves like io.EOF on every further call, as
strings.Reader does. -/
inductive ReadResult where
  | bytes (bs : List Nat)
  | eofSig
  | readErr (msg : String)
deriving DecidableEq, Repr

/-- Reserved item type: error detected (Go: ItemError = iota = 0). -/
def ItemError : Int := 0

/-- Reserved item type: end of record (Go: ItemEOR = 1). -/
def ItemEOR : Int := 1

/-- Reserved item type: end of file (Go: ItemEOF = 2). -/
def ItemEOF : Int := 2

/-- Value of a lexed item.  Go uses a single string type for both; the
model keeps the raw bytes of emitted spans apart from formatted error
messages so that byte content can be compared exactly. -/
inductive ItemVal where
  | raw (bs : List Nat)
  | str (s : String)
deriving DecidableEq, Repr

/-- Item: a lexed token (Go struct Item { Type; Pos; Value }). -/
structure Item where
  type : Int
  pos : Int
  value : ItemVal
deriving DecidableEq, Repr

/-- StateFn values that occur in the package: the four factory-built
scanners (with their needed flag) and the five fixed scanners.  The Go
code stores these as function values; the model stores them as this
inductive and interprets them with runScan. -/
inductive ScanFn where
  | accept (valid : String) (needed : Bool)
  | acceptRun (valid : String) (needed : Bool)
  | except (invalid : String) (needed : Bool)
  | exceptRun (invalid : String) (needed : Bool)
  | quote
  | digits
  | letters
  | spaces
  | number
deriving DecidableEq, Repr

/-- ErrorFn values that occur in the package: SkipPast(s). -/
inductive ErrFn where
  | skipPast (s : String)
deriving DecidableEq, Repr

/-- Binding maps a lexer ItemType to a StateFn plus the emit flag. -/
structure Binding where
  itemType : Int
  stateFn : ScanFn
  emit : Bool
deriving DecidableEq, Repr

/-- Record: a record shape (Go struct Record { Buflen; States; ErrorFn }).
ErrorFn is a Go function value and may be nil, modelled by Option. -/
structure Record where
  buflen : Int
  states : List Binding
  errorFn : Option ErrFn
deriving DecidableEq, Repr

/-- EOF pseudo-rune returned by Next at end of input (Go: const EOF = -1). -/
def EOF : Int := -1

/-- Go utf8.RuneError, the replacement character U+FFFD. -/
def RuneError : Int := 0xFFFD

/-- Go utf8.UTFMax. -/
def UTFMax : Int := 4

/-- Go utf8.DecodeRune on a byte slice, returning the rune and its width.
Transcribed from the Go standard library: ASCII and invalid first bytes
give width 1, multi-byte sequences check their continuation-byte accept
ranges and give RuneError with width 1 on any violation or truncation. -/
def decodeRune (p : List Nat) : Int × Int :=
  match p with
  | [] => (RuneError, 0)
  | b0 :: t =>
    if b0 < 0x80 then ((b0 : Int), 1)
    else if b0 < 0xC2 then (RuneError, 1)
    else if b0 ≤ 0xDF then
      match t with
      | b1 :: _ =>
        if 0x80 ≤ b1 ∧ b1 ≤ 0xBF then (((b0 % 0x20) * 0x40 + b1 % 0x40 : Nat), 2)
        else (RuneError, 1)
      | [] => (RuneError, 1)
    else if b0 ≤ 0xEF then
      match t with
      | b1 :: b2 :: _ =>
        if (if b0 = 0xE0 then 0xA0 else 0x80) ≤ b1 ∧ b1 ≤ (if b0 = 0xED then 0x9F else 0xBF) then
          if 0x80 ≤ b2 ∧ b2 ≤ 0xBF then
            (((b0 % 0x10) * 0x1000 + (b1 % 0x40) * 0x40 + b2 % 0x40 : Nat), 3)
          else (RuneError, 1)
        else (RuneError, 1)
      | _ => (RuneError, 1)
    else if b0 ≤ 0xF4 then
      match t with
      | b1 :: b2 :: b3 :: _ =>
        if (if b0 = 0xF0 then 0x90 else 0x80) ≤ b1 ∧ b1 ≤ (if b0 = 0xF4 then 0x8F else 0xBF) then
          if 0x80 ≤ b2 ∧ b2 ≤ 0xBF then
            if 0x80 ≤ b3 ∧ b3 ≤ 0xBF then
              (((b0 % 0x08) * 0x40000 + (b1 % 0x40) * 0x1000 + (b2 % 0x40) * 0x40
                + b3 % 0x40 : Nat), 4)
            else (RuneError, 1)
          else (RuneError, 1)
        else (RuneError, 1)
      | _ => (RuneError, 1)
    else (RuneError, 1)

/-- Go strings.IndexRune(s, r) >= 0: whether rune r occurs in the (valid
UTF-8) string s.  Negative or otherwise invalid runes, in particular the
EOF pseudo-rune, occur in no string. -/
def strContainsRune (s : String) (r : Int) : Bool :=
  s.toList.any fun c => (c.toNat : Int) = r

/-- Lexer: the scanner state (Go struct Lexer).  The items channel is
modelled by the out list (items in emission order); the reader by the
chunks list; cap(buf) by bufCap.  The consumer-side fields (name is kept,
lastPos and the NextItem bookkeeping are consumer bookkeeping and carry
no scanning state). -/
structure Lexer where
  name : String
  chunks : List ReadResult
  record : Record
  out : List Item
  eof : Bool
  buf : List Nat
  bufCap : Nat
  rpos : Int
  pos : Int
  start : Int
  width : Int
deriving DecidableEq, Repr

/-- Growth of cap on append.  Go leaves slice capacity growth
implementation-defined; the model doubles, which matches Go for small
slices.  Nothing below depends on the precise growth policy. -/
def growCap (c n : Nat) : Nat :=
  if n ≤ c then c else max (2 * c) n

/-- Errorf: send an error item carrying the current absolute byte
position (Go: l.items <- Item{ItemError, l.rpos, fmt.Sprintf(...)}). -/
def Lexer.Errorf (l : Lexer) (msg : String) : Lexer :=
  { l with out := l.out ++ [⟨ItemError, l.rpos, ItemVal.str msg⟩] }

/-- Approximation of the %q verb on a rune for error messages: printable
form in quotes for valid runes, a marker for the EOF pseudo-rune.  The
exact escaping rules of strconv are immaterial to every claim. -/
def quoteRune (r : Int) : String :=
  if 0 ≤ r ∧ r < 0xD800 then
    String.mk [Char.ofNat r.toNat]
  else
    "%!q(int32=" ++ toString r ++ ")"

/-- Approximation of the %q verb on a string. -/
def quoteStr (s : String) : String :=
  "\x22" ++ s ++ "\x22"

/-- One io.Reader.Read into the Buflen-sized staging buffer, followed by
the append/report branch of Next (Go lines: n, err := l.r.Read(l.next);
if err == nil ... else if err != io.EOF ...).  A Read returns at most
Buflen bytes, hence the take. -/
def Lexer.readChunk (l : Lexer) : Lexer :=
  match l.chunks with
  | [] => l
  | c :: rest =>
    match c with
    | ReadResult.bytes bs =>
      let app := bs.take l.record.buflen.toNat
      { l with chunks := rest, buf := l.buf ++ app,
               bufCap := growCap l.bufCap (l.buf.length + app.length) }
    | ReadResult.eofSig => { l with chunks := rest }
    | ReadResult.readErr m =>
      { l with chunks := rest,
               out := l.out ++ [⟨ItemError, l.rpos, ItemVal.str (l.name ++ ": " ++ m)⟩] }

/-- Decoding half of Next: at the end of the buffer set the eof flag
and return the EOF pseudo-rune, otherwise decode the rune at pos and
advance.  Go tests pos == len(buf); on every state with 0 ≤ pos ≤
len(buf) that is exactly the emptiness of the slice buf[pos:] used
here, and on states with pos outside that range the Go code panics at
the slice expression, so the two agree on every non-panicking state. -/
def Lexer.decodeStep (l1 : Lexer) : Int × Lexer :=
  match l1.buf.drop l1.pos.toNat with
  | [] => (EOF, { l1 with eof := true })
  | b0 :: t =>
    let rw := decodeRune (b0 :: t)
    (rw.1, { l1 with width := rw.2, pos := l1.pos + rw.2, rpos := l1.rpos + rw.2 })

/-- Next: consume the next rune (Go func (l *Lexer) Next() rune): refill
the buffer when fewer than UTFMax bytes remain unread, then decode. -/
def Lexer.Next (l : Lexer) : Int × Lexer :=
  (if (l.buf.length : Int) - l.pos < UTFMax then l.readChunk else l).decodeStep

/-- Backup: step back one rune; a no-op once the eof flag is set. -/
def Lexer.Backup (l : Lexer) : Lexer :=
  if l.eof then l
  else { l with pos := l.pos - l.width, rpos := l.rpos - l.width }

/-- Peek: Next immediately followed by Backup. -/
def Lexer.Peek (l : Lexer) : Int × Lexer :=
  let rl := l.Next
  (rl.1, rl.2.Backup)

/-- Skip: advance over the current item without reporting it; compact
the buffer when at most a tenth of its capacity remains beyond pos. -/
def Lexer.Skip (l : Lexer) : Lexer :=
  let n : Int := l.bufCap
  let r : Int := n - l.pos
  if n / 10 ≥ r then
    { l with buf := l.buf.drop l.pos.toNat, start := 0, pos := 0 }
  else
    { l with start := l.pos }

/-- Emit: report the span from start to pos as an item of type t, then
Skip (Go: l.items <- Item{t, l.rpos - int64(l.pos-l.start),
string(l.buf[l.start:l.pos])}; l.Skip()). -/
def Lexer.Emit (l : Lexer) (t : Int) : Lexer :=
  Lexer.Skip
    { l with out := l.out ++
        [⟨t, l.rpos - (l.pos - l.start),
          ItemVal.raw ((l.buf.drop l.start.toNat).take (l.pos - l.start).toNat)⟩] }

/-- Accept (method): consume the next rune if it is in the valid set. -/
def Lexer.Accept (l : Lexer) (valid : String) : Bool × Lexer :=
  let rl := l.Next
  if strContainsRune valid rl.1 then (true, rl.2)
  else (false, rl.2.Backup)

/-- Except (method): consume the next rune if it is not in the invalid
set. -/
def Lexer.Except (l : Lexer) (invalid : String) : Bool × Lexer :=
  let rl := l.Next
  if ¬ strContainsRune invalid rl.1 then (true, rl.2)
  else (false, rl.2.Backup)

/-- Termination measure for the scanning loops: every Next that returns
a rune strictly decreases it (reads consume chunks, decoding advances
pos). -/
def lexMeasure (l : Lexer) : Nat :=
  l.record.buflen.toNat * l.chunks.length + ((l.buf.length : Int) - l.pos).toNat

/-- Fuel that dominates lexMeasure, used by the loop wrappers. -/
def lexFuel (l : Lexer) : Nat :=
  lexMeasure l + 1

/-- Loop body of the AcceptRun method: consume runes while they are in
the valid set, stopping at EOF or at the first non-member (Go: for { r
:= l.Next(); if r == EOF { break }; if IndexRune(valid, r) < 0 { break }
}).  The fuel always dominates the measure at the call site, so the
fuel-out branch never runs. -/
def acceptRunLoop (fuel : Nat) (valid : String) (l : Lexer) : Lexer :=
  match fuel with
  | 0 => l
  | f + 1 =>
    let rl := l.Next
    if rl.1 = EOF then rl.2
    else if ¬ strContainsRune valid rl.1 then rl.2
    else acceptRunLoop f valid rl.2

/-- AcceptRun (method): consume a run of runes from the valid set, then
Backup; report whether pos exceeds start. -/
def Lexer.AcceptRun (l : Lexer) (valid : String) : Bool × Lexer :=
  let l1 := acceptRunLoop (lexFuel l) valid l
  let l2 := l1.Backup
  (l2.pos > l2.start, l2)

/-- Loop body of the ExceptRun method: consume runes while they are not
in the invalid set, stopping at EOF or at the first member. -/
def exceptRunLoop (fuel : Nat) (invalid : String) (l : Lexer) : Lexer :=
  match fuel with
  | 0 => l
  | f + 1 =>
    let rl := l.Next
    if rl.1 = EOF then rl.2
    else if strContainsRune invalid rl.1 then rl.2
    else exceptRunLoop f invalid rl.2

/-- ExceptRun (method): consume a run of runes not in the invalid set,
then Backup; report whether pos exceeds start. -/
def Lexer.ExceptRun (l : Lexer) (invalid : String) : Bool × Lexer :=
  let l1 := exceptRunLoop (lexFuel l) invalid l
  let l2 := l1.Backup
  (l2.pos > l2.start, l2)

/-- SkipPast(s): the standard recovery routine; ExceptRun(s) then
AcceptRun(s), calling Skip after each successful run. -/
def skipPast (s : String) (l : Lexer) : Lexer :=
  let bl1 := l.ExceptRun s
  let l2 := if bl1.1 then bl1.2.Skip else bl1.2
  let bl2 := l2.AcceptRun s
  if bl2.1 then bl2.2.Skip else bl2.2

/-- Interpretation of the stored ErrorFn values. -/
def runErrFn : ErrFn → Lexer → Lexer
  | ErrFn.skipPast s, l => skipPast s l

/-- Modelled from the spec: the decimal-digit class of the consumed
characters (spec 4.3: an unsigned run of decimal digits).  The Go code
uses unicode.IsDigit, whose Unicode tables are not part of this
repository; the model uses the ASCII fragment, on which the two agree,
and no theorem below depends on the exact class. -/
def unicodeIsDigit (r : Int) : Bool :=
  48 ≤ r ∧ r ≤ 57

/-- Modelled from the spec: the alphabetic class (spec 4.3: a run of
alphabetic characters).  Go unicode.IsLetter restricted to ASCII, on
which the two agree. -/
def unicodeIsLetter (r : Int) : Bool :=
  (65 ≤ r ∧ r ≤ 90) ∨ (97 ≤ r ∧ r ≤ 122)

/-- Modelled from the spec: the white-space class.  Go unicode.IsSpace
restricted to its Latin-1 fragment. -/
def unicodeIsSpace (r : Int) : Bool :=
  r = 9 ∨ r = 10 ∨ r = 11 ∨ r = 12 ∨ r = 13 ∨ r = 32 ∨ r = 0x85 ∨ r = 0xA0

/-- Shared loop of the Digits, Letters and Spaces scanners: consume
runes while the class predicate holds, returning the first rune outside
the class together with the state just after reading it.  The Go
predicates are false at the EOF pseudo-rune, so the explicit EOF test
only makes the loop exit structural. -/
def scanWhile (fuel : Nat) (p : Int → Bool) (l : Lexer) : Int × Lexer :=
  match fuel with
  | 0 => (EOF, l)
  | f + 1 =>
    let rl := l.Next
    if rl.1 = EOF then rl
    else if p rl.1 then scanWhile f p rl.2
    else rl

/-- Tail of Digits, Letters and Spaces after their loop: Backup over the
offending rune, then emit the span or an error (Go: l.Backup(); if
l.pos > l.start { ... } ; l.Errorf(...)). -/
def classTail (l : Lexer) (t : Int) (emit : Bool) (r : Int) (what : String) : Bool × Lexer :=
  let l1 := l.Backup
  if l1.pos > l1.start then
    if emit then (true, l1.Emit t) else (true, l1.Skip)
  else
    (false, l1.Errorf ("expected " ++ what ++ ", got " ++ quoteRune r))

/-- Digits: consume unicode digits (Go func Digits). -/
def Digits (l : Lexer) (t : Int) (emit : Bool) : Bool × Lexer :=
  let rl := scanWhile (lexFuel l) unicodeIsDigit l
  classTail rl.2 t emit rl.1 "[0-9]"

/-- Letters: consume unicode letters (Go func Letters). -/
def Letters (l : Lexer) (t : Int) (emit : Bool) : Bool × Lexer :=
  let rl := scanWhile (lexFuel l) unicodeIsLetter l
  classTail rl.2 t emit rl.1 "letter"

/-- Spaces: consume unicode spaces (Go func Spaces). -/
def Spaces (l : Lexer) (t : Int) (emit : Bool) : Bool × Lexer :=
  let rl := scanWhile (lexFuel l) unicodeIsSpace l
  classTail rl.2 t emit rl.1 "whitespace"

/-- Exit reason of the Quote scanning loop. -/
inductive QuoteExit where
  | newline
  | eofHit
  | closeQuote
deriving DecidableEq, Repr

/-- Loop of the Quote scanner: a backslash consumes the following rune,
a newline or EOF or closing quote exits, anything else is consumed. -/
def quoteLoop (fuel : Nat) (l : Lexer) : QuoteExit × Lexer :=
  match fuel with
  | 0 => (QuoteExit.eofHit, l)
  | f + 1 =>
    let rl := l.Next
    if rl.1 = 92 then quoteLoop f rl.2.Next.2
    else if rl.1 = 10 then (QuoteExit.newline, rl.2)
    else if rl.1 = EOF then (QuoteExit.eofHit, rl.2)
    else if rl.1 = 34 then (QuoteExit.closeQuote, rl.2)
    else quoteLoop f rl.2

/-- Quote: consume a double-quoted string with backslash escapes; an
unescaped newline or EOF before the closing quote is a failure (Go func
Quote). -/
def Quote (l : Lexer) (t : Int) (emit : Bool) : Bool × Lexer :=
  let rl := l.Next
  if rl.1 ≠ 34 then
    (false, (rl.2.Errorf ("expected quote, got " ++ quoteRune rl.1)).Backup)
  else
    let el := quoteLoop (lexFuel rl.2) rl.2
    match el.1 with
    | QuoteExit.newline => (false, (el.2.Errorf "unterminated quote").Backup)
    | QuoteExit.eofHit => (false, el.2.Errorf "unterminated quote")
    | QuoteExit.closeQuote =>
      if emit then (true, el.2.Emit t) else (true, el.2.Skip)

/-- isAlphaNumeric: letter, digit or underscore (Go func isAlphaNumeric). -/
def isAlphaNumeric (r : Int) : Bool :=
  r = 95 || unicodeIsLetter r || unicodeIsDigit r

/-- scanNumber: the number-shape scanner taken from text/template
(Go func (l *Lexer) scanNumber() bool). -/
def Lexer.scanNumber (l : Lexer) : Bool × Lexer :=
  let a1 := l.Accept "+-"
  let hex := a1.2.Accept "0"
  let hx2 := if hex.1 then hex.2.Accept "xX" else (false, hex.2)
  let digits := if hex.1 ∧ hx2.1 then "0123456789abcdefABCDEF" else "0123456789"
  let r1 := hx2.2.AcceptRun digits
  let dot := r1.2.Accept "."
  let r2 := if dot.1 then dot.2.AcceptRun digits else (false, dot.2)
  let e1 := r2.2.Accept "eE"
  let e3 :=
    if e1.1 then
      let sg := e1.2.Accept "+-"
      (sg.2.AcceptRun "0123456789").2
    else e1.2
  let im := e3.Accept "i"
  let pk := im.2.Peek
  if isAlphaNumeric pk.1 then
    (false, pk.2.Next.2)
  else
    (true, pk.2)

/-- Number: scan a number, with the trailing complex part, and emit the
span or the bad-number error (Go func Number). -/
def Number (l : Lexer) (t : Int) (emit : Bool) : Bool × Lexer :=
  let s1 := l.scanNumber
  if ¬ s1.1 then
    (false, s1.2.Errorf "bad number syntax")
  else
    let pk := s1.2.Peek
    if pk.1 = 43 ∨ pk.1 = 45 then
      let s2 := pk.2.scanNumber
      if ¬ s2.1 ∨ ¬ (s2.2.buf.getD (s2.2.pos - 1).toNat 0 = 105) then
        (false, s2.2.Errorf "bad number syntax")
      else
        if emit then (true, s2.2.Emit t) else (true, s2.2.Skip)
    else
      if emit then (true, pk.2.Emit t) else (true, pk.2.Skip)

/-- Interpretation of the stored StateFn values: the four factory
scanners (Go funcs Accept, AcceptRun, Except, ExceptRun returning
StateFn) and the five fixed scanners. -/
def runScan : ScanFn → Lexer → Int → Bool → Bool × Lexer
  | ScanFn.accept valid needed, l, t, emit =>
    let bl := l.Accept valid
    if bl.1 then
      if emit then (true, bl.2.Emit t) else (true, bl.2.Skip)
    else if needed then
      let pk := bl.2.Peek
      (false, pk.2.Errorf
        ("expected character from the set " ++ quoteStr valid ++ ", got " ++ quoteRune pk.1))
    else (false, bl.2)
  | ScanFn.acceptRun valid needed, l, t, emit =>
    let bl := l.AcceptRun valid
    if bl.1 then
      if emit then (true, bl.2.Emit t) else (true, bl.2.Skip)
    else if needed then
      let pk := bl.2.Peek
      (false, pk.2.Errorf
        ("expected a run of characters from the set " ++ quoteStr valid ++ ", got "
          ++ quoteRune pk.1))
    else (false, bl.2)
  | ScanFn.except invalid needed, l, t, emit =>
    let bl := l.Except invalid
    if bl.1 then
      if emit then (true, bl.2.Emit t) else (true, bl.2.Skip)
    else if needed then
      let pk := bl.2.Peek
      (false, pk.2.Errorf
        ("expected a character outside the set " ++ quoteStr invalid ++ ", got "
          ++ quoteRune pk.1))
    else (false, bl.2)
  | ScanFn.exceptRun invalid needed, l, t, emit =>
    let bl := l.ExceptRun invalid
    if bl.1 then
      if emit then (true, bl.2.Emit t) else (true, bl.2.Skip)
    else if needed then
      let pk := bl.2.Peek
      (false, pk.2.Errorf
        ("expected a character outside the set " ++ quoteStr invalid ++ ", got "
          ++ quoteRune pk.1))
    else (false, bl.2)
  | ScanFn.quote, l, t, emit => Quote l t emit
  | ScanFn.digits, l, t, emit => Digits l t emit
  | ScanFn.letters, l, t, emit => Letters l t emit
  | ScanFn.spaces, l, t, emit => Spaces l t emit
  | ScanFn.number, l, t, emit => Number l t emit

/-- One pass of the record driver over the remaining field steps, with
the running index i and the last index eor (Go: for i, state := range
l.rec.States { ... } inside run).  A failing step runs the recovery
routine and breaks; a successful step emits an end-of-record item when
it is the last step or the eof flag is set.  A nil ErrorFn would make
the Go code panic; NewLexer rejects it, so the none branch is
unreachable from a constructed lexer. -/
def passStates : List Binding → Nat → Nat → Lexer → Lexer
  | [], _, _, l => l
  | b :: rest, i, eor, l =>
    let bl := runScan b.stateFn l b.itemType b.emit
    if bl.1 then
      passStates rest (i + 1) eor
        (if i = eor ∨ bl.2.eof then bl.2.Emit ItemEOR else bl.2)
    else
      match bl.2.record.errorFn with
      | some e => runErrFn e bl.2
      | none => bl.2

/-- Modelled from the spec: a record is completed when every field step
of the pass succeeds (spec 8: the end-of-record token kind is observed
exactly once per completed record).  Mirrors the state evolution of
passStates and is used only to state that property. -/
def passCompleted : List Binding → Nat → Nat → Lexer → Bool
  | [], _, _, _ => true
  | b :: rest, i, eor, l =>
    let bl := runScan b.stateFn l b.itemType b.emit
    if bl.1 then
      passCompleted rest (i + 1) eor
        (if i = eor ∨ bl.2.eof then bl.2.Emit ItemEOR else bl.2)
    else false

/-- Modelled from the spec: how many field steps of the pass succeed
before the first failure stops it.  Mirrors passStates likewise. -/
def passSuccCount : List Binding → Nat → Nat → Lexer → Nat
  | [], _, _, _ => 0
  | b :: rest, i, eor, l =>
    let bl := runScan b.stateFn l b.itemType b.emit
    if bl.1 then
      passSuccCount rest (i + 1) eor
        (if i = eor ∨ bl.2.eof then bl.2.Emit ItemEOR else bl.2) + 1
    else 0

/-- Driver loop (Go func (l *Lexer) run): repeat passes over the field
steps until Peek sees EOF, then emit the end-of-input item and stop.
The loop need not terminate for every record shape, hence the fuel;
none means the given number of passes did not reach end of input. -/
def runLoop : Nat → Lexer → Option Lexer
  | 0, _ => none
  | fuel + 1, l =>
    let eor := l.record.states.length - 1
    let l1 := passStates l.record.states 0 eor l
    let pk := l1.Peek
    if pk.1 = EOF then some (pk.2.Emit ItemEOF)
    else runLoop fuel pk.2

/-- NewLexer: validate the record shape and return the initial lexer
state (Go func NewLexer).  The run goroutine is modelled separately by
runLoop; lexAll composes the two. -/
def NewLexer (name : String) (chunks : List ReadResult) (record : Record) :
    Except String Lexer :=
  if record.states.length = 0 then
    Except.error "rec.states must not be empty."
  else if record.buflen < 1 then
    Except.error ("rec.Buflen must be > 0: " ++ toString record.buflen)
  else if record.errorFn = none then
    Except.error "rec.ErrorFn must not be nil"
  else
    Except.ok
      { name := name, chunks := chunks, record := record, out := [], eof := false,
        buf := [], bufCap := 0, rpos := 0, pos := 0, start := 0, width := 0 }

/-- Construct a lexer and drive it with the given fuel, returning the
full item stream when the driver reaches end of input. -/
def lexAll (fuel : Nat) (name : String) (chunks : List ReadResult) (record : Record) :
    Option (List Item) :=
  match NewLexer name chunks record with
  | Except.error _ => none
  | Except.ok l => (runLoop fuel l).map Lexer.out

/-! Basic facts about decodeRune: on a nonempty slice the width is
between 1 and the slice length and the rune is nonnegative (hence never
the EOF pseudo-rune). -/

theorem decodeRune_width_pos (b0 : Nat) (t : List Nat) :
    1 ≤ (decodeRune (b0 :: t)).2 := by
  rcases t with _ | ⟨b1, _ | ⟨b2, _ | ⟨b3, t⟩⟩⟩ <;>
    · simp only [decodeRune]
      split_ifs <;> simp

theorem decodeRune_width_le (b0 : Nat) (t : List Nat) :
    (decodeRune (b0 :: t)).2 ≤ (b0 :: t).length := by
  rcases t with _ | ⟨b1, _ | ⟨b2, _ | ⟨b3, t⟩⟩⟩ <;>
    · simp only [decodeRune, List.length_cons]
      split_ifs <;> simp <;> omega

theorem decodeRune_fst_nonneg (b0 : Nat) (t : List Nat) :
    0 ≤ (decodeRune (b0 :: t)).1 := by
  rcases t with _ | ⟨b1, _ | ⟨b2, _ | ⟨b3, t⟩⟩⟩ <;>
    · simp only [decodeRune, RuneError]
      split_ifs <;> simp <;> omega

/-! Field-effect facts for readChunk: it never touches the cursor
offsets, the eof flag or the record, only the chunks, buffer, capacity
and output. -/

theorem readChunk_pos (l : Lexer) : l.readChunk.pos = l.pos := by
  rcases hc : l.chunks with _ | ⟨c, rest⟩ <;> [skip; cases c] <;> simp [Lexer.readChunk, hc]

theorem readChunk_start (l : Lexer) : l.readChunk.start = l.start := by
  rcases hc : l.chunks with _ | ⟨c, rest⟩ <;> [skip; cases c] <;> simp [Lexer.readChunk, hc]

theorem readChunk_rpos (l : Lexer) : l.readChunk.rpos = l.rpos := by
  rcases hc : l.chunks with _ | ⟨c, rest⟩ <;> [skip; cases c] <;> simp [Lexer.readChunk, hc]

theorem readChunk_width (l : Lexer) : l.readChunk.width = l.width := by
  rcases hc : l.chunks with _ | ⟨c, rest⟩ <;> [skip; cases c] <;> simp [Lexer.readChunk, hc]

theorem readChunk_eof (l : Lexer) : l.readChunk.eof = l.eof := by
  rcases hc : l.chunks with _ | ⟨c, rest⟩ <;> [skip; cases c] <;> simp [Lexer.readChunk, hc]

theorem readChunk_record (l : Lexer) : l.readChunk.record = l.record := by
  rcases hc : l.chunks with _ | ⟨c, rest⟩ <;> [skip; cases c] <;> simp [Lexer.readChunk, hc]

theorem readChunk_buf_extend (l : Lexer) :
    ∃ a, l.readChunk.buf = l.buf ++ a ∧ a.length ≤ l.record.buflen.toNat := by
  rcases hc : l.chunks with _ | ⟨c, rest⟩
  · exact ⟨[], by simp [Lexer.readChunk, hc]⟩
  · cases c with
    | bytes bs =>
      exact ⟨bs.take l.record.buflen.toNat, by simp [Lexer.readChunk, hc], by simp⟩
    | eofSig => exact ⟨[], by simp [Lexer.readChunk, hc]⟩
    | readErr m => exact ⟨[], by simp [Lexer.readChunk, hc]⟩

theorem readChunk_chunks (l : Lexer) :
    l.readChunk.chunks = l.chunks ∨ l.readChunk.chunks = l.chunks.tail := by
  rcases hc : l.chunks with _ | ⟨c, rest⟩
  · exact Or.inl (by simp [Lexer.readChunk, hc])
  · cases c <;> exact Or.inr (by simp [Lexer.readChunk, hc])

theorem readChunk_cap (l : Lexer) :
    l.readChunk.buf.length ≤ l.readChunk.bufCap ∨ l.readChunk.bufCap = l.bufCap := by
  rcases hc : l.chunks with _ | ⟨c, rest⟩
  · exact Or.inr (by simp [Lexer.readChunk, hc])
  · cases c with
    | bytes bs =>
      left
      simp only [Lexer.readChunk, hc, List.length_append, growCap]
      split <;> omega
    | eofSig => exact Or.inr (by simp [Lexer.readChunk, hc])
    | readErr m => exact Or.inr (by simp [Lexer.readChunk, hc])

/-- The termination measure never grows across a read. -/
theorem readChunk_measure_le (l : Lexer) : lexMeasure l.readChunk ≤ lexMeasure l := by
  rcases hc : l.chunks with _ | ⟨c, rest⟩
  · simp [Lexer.readChunk, hc]
  · have hm : l.record.buflen.toNat * (rest.length + 1)
        = l.record.buflen.toNat * rest.length + l.record.buflen.toNat :=
      Nat.mul_succ _ _
    cases c with
    | bytes bs =>
      simp only [lexMeasure, Lexer.readChunk, hc, List.length_cons, List.length_append,
        List.length_take]
      omega
    | eofSig => simp only [lexMeasure, Lexer.readChunk, hc, List.length_cons]; omega
    | readErr m => simp only [lexMeasure, Lexer.readChunk, hc, List.length_cons]; omega

/-- Facts about the decoding half: measure behaviour and the shape of
the EOF branch.  A returned rune is never EOF (decoded runes are
nonnegative), and the measure strictly drops when a rune is returned.
-/
theorem decodeStep_eof_branch (l1 : Lexer) (h : l1.buf.drop l1.pos.toNat = []) :
    l1.decodeStep = (EOF, { l1 with eof := true }) := by
  simp [Lexer.decodeStep, h]

theorem decodeStep_decode_branch (l1 : Lexer) (b0 : Nat) (t : List Nat)
    (h : l1.buf.drop l1.pos.toNat = b0 :: t) :
    l1.decodeStep =
      ((decodeRune (b0 :: t)).1,
        { l1 with width := (decodeRune (b0 :: t)).2,
                  pos := l1.pos + (decodeRune (b0 :: t)).2,
                  rpos := l1.rpos + (decodeRune (b0 :: t)).2 }) := by
  simp [Lexer.decodeStep, h]

theorem decodeStep_measure_lt (l1 : Lexer) :
    (l1.decodeStep).1 ≠ EOF → lexMeasure (l1.decodeStep).2 < lexMeasure l1 := by
  intro h
  rcases hd : l1.buf.drop l1.pos.toNat with _ | ⟨b0, t⟩
  · rw [decodeStep_eof_branch l1 hd] at h
    exact absurd rfl h
  · rw [decodeStep_decode_branch l1 b0 t hd]
    have hw : 1 ≤ (decodeRune (b0 :: t)).2 := decodeRune_width_pos b0 t
    have hlen : l1.buf.length - l1.pos.toNat = t.length + 1 := by
      have := congrArg List.length hd
      simp only [List.length_drop, List.length_cons] at this
      exact this
    dsimp only [lexMeasure]
    omega

theorem decodeStep_measure_le (l1 : Lexer) :
    lexMeasure (l1.decodeStep).2 ≤ lexMeasure l1 := by
  rcases hd : l1.buf.drop l1.pos.toNat with _ | ⟨b0, t⟩
  · rw [decodeStep_eof_branch l1 hd]
    exact le_of_eq rfl
  · refine le_of_lt (decodeStep_measure_lt l1 ?_)
    rw [decodeStep_decode_branch l1 b0 t hd]
    have := decodeRune_fst_nonneg b0 t
    simp only [EOF]
    omega

theorem decodeStep_fst (l1 : Lexer) :
    (l1.decodeStep).1 = EOF ∨ 0 ≤ (l1.decodeStep).1 := by
  rcases hd : l1.buf.drop l1.pos.toNat with _ | ⟨b0, t⟩
  · rw [decodeStep_eof_branch l1 hd]; exact Or.inl rfl
  · rw [decodeStep_decode_branch l1 b0 t hd]
    exact Or.inr (decodeRune_fst_nonneg b0 t)

/-- The refill half of Next, named for reuse in proofs. -/
theorem next_eq_refill (l : Lexer) :
    Lexer.Next l
      = (if (l.buf.length : Int) - l.pos < UTFMax then l.readChunk else l).decodeStep := rfl

theorem refill_measure_le (l : Lexer) :
    lexMeasure (if (l.buf.length : Int) - l.pos < UTFMax then l.readChunk else l)
      ≤ lexMeasure l := by
  split
  · exact readChunk_measure_le l
  · exact le_refl _

/-- A Next that returns a rune strictly decreases the measure. -/
theorem next_measure_lt (l : Lexer) :
    (Lexer.Next l).1 ≠ EOF → lexMeasure (Lexer.Next l).2 < lexMeasure l := by
  intro h
  rw [next_eq_refill] at h ⊢
  exact lt_of_lt_of_le (decodeStep_measure_lt _ h) (refill_measure_le l)

/-- The measure never grows across a Next. -/
theorem next_measure_le (l : Lexer) :
    lexMeasure (Lexer.Next l).2 ≤ lexMeasure l := by
  rw [next_eq_refill]
  exact le_trans (decodeStep_measure_le _) (refill_measure_le l)

/-- A rune returned by Next is EOF or a nonnegative code point. -/
theorem next_fst (l : Lexer) :
    (Lexer.Next l).1 = EOF ∨ 0 ≤ (Lexer.Next l).1 := by
  rw [next_eq_refill]
  exact decodeStep_fst _

/-- Reader states whose remaining reads never fail (spec 7 read errors
are absent). -/
def errFree (l : Lexer) : Prop :=
  ∀ m, ReadResult.readErr m ∉ l.chunks

/-- Common shape of every state transition of the scanner: the record
is read-only, the eof flag is monotone, the output only grows, with the
types of the appended items bounded by P, and an error-free reader
stays error-free. -/
def Evolves (P : Int → Prop) (l l2 : Lexer) : Prop :=
  l2.record = l.record ∧ (l.eof = true → l2.eof = true) ∧
    (∃ d, l2.out = l.out ++ d ∧ ∀ x ∈ d, P x.type) ∧ (errFree l → errFree l2)

theorem Evolves.refl (P : Int → Prop) (l : Lexer) : Evolves P l l :=
  ⟨rfl, fun h => h, ⟨[], by simp, by simp⟩, fun h => h⟩

theorem Evolves.trans {P : Int → Prop} {a b c : Lexer}
    (h1 : Evolves P a b) (h2 : Evolves P b c) : Evolves P a c := by
  obtain ⟨hr1, he1, ⟨d1, ho1, hd1⟩, hf1⟩ := h1
  obtain ⟨hr2, he2, ⟨d2, ho2, hd2⟩, hf2⟩ := h2
  refine ⟨hr2.trans hr1, fun h => he2 (he1 h), ⟨d1 ++ d2, ?_, ?_⟩, fun h => hf2 (hf1 h)⟩
  · rw [ho2, ho1, List.append_assoc]
  · intro x hx
    rcases List.mem_append.mp hx with hx | hx
    · exact hd1 x hx
    · exact hd2 x hx

theorem Evolves.mono {P Q : Int → Prop} {l l2 : Lexer}
    (h : Evolves P l l2) (hpq : ∀ k, P k → Q k) : Evolves Q l l2 := by
  obtain ⟨hr, he, ⟨d, ho, hd⟩, hf⟩ := h
  exact ⟨hr, he, ⟨d, ho, fun x hx => hpq _ (hd x hx)⟩, hf⟩

theorem evolves_readChunk (l : Lexer) : Evolves (· = ItemError) l l.readChunk := by
  rcases hc : l.chunks with _ | ⟨c, rest⟩
  · refine ⟨readChunk_record l, ?_, ⟨[], by simp [Lexer.readChunk, hc], by simp⟩, ?_⟩
    · rw [readChunk_eof]; exact fun h => h
    · intro h m hm
      rcases readChunk_chunks l with hk | hk <;> rw [hk] at hm
      · exact h m hm
      · exact h m (List.mem_of_mem_tail hm)
  · refine ⟨readChunk_record l, ?_, ?_, ?_⟩
    · rw [readChunk_eof]; exact fun h => h
    · cases c with
      | bytes bs => exact ⟨[], by simp [Lexer.readChunk, hc], by simp⟩
      | eofSig => exact ⟨[], by simp [Lexer.readChunk, hc], by simp⟩
      | readErr m =>
        exact ⟨[⟨ItemError, l.rpos, ItemVal.str (l.name ++ ": " ++ m)⟩],
          by simp [Lexer.readChunk, hc], by simp⟩
    · intro h m hm
      rcases readChunk_chunks l with hk | hk <;> rw [hk] at hm
      · exact h m hm
      · exact h m (List.mem_of_mem_tail hm)

theorem decodeStep_start (l1 : Lexer) : (l1.decodeStep).2.start = l1.start := by
  rcases hd : l1.buf.drop l1.pos.toNat with _ | ⟨b0, t⟩
  · rw [decodeStep_eof_branch l1 hd]
  · rw [decodeStep_decode_branch l1 b0 t hd]

theorem decodeStep_buf (l1 : Lexer) : (l1.decodeStep).2.buf = l1.buf := by
  rcases hd : l1.buf.drop l1.pos.toNat with _ | ⟨b0, t⟩
  · rw [decodeStep_eof_branch l1 hd]
  · rw [decodeStep_decode_branch l1 b0 t hd]

theorem decodeStep_bufCap (l1 : Lexer) : (l1.decodeStep).2.bufCap = l1.bufCap := by
  rcases hd : l1.buf.drop l1.pos.toNat with _ | ⟨b0, t⟩
  · rw [decodeStep_eof_branch l1 hd]
  · rw [decodeStep_decode_branch l1 b0 t hd]

theorem evolves_decodeStep (l1 : Lexer) : Evolves (fun _ => False) l1 (l1.decodeStep).2 := by
  rcases hd : l1.buf.drop l1.pos.toNat with _ | ⟨b0, t⟩
  · rw [decodeStep_eof_branch l1 hd]
    exact ⟨rfl, fun _ => rfl, ⟨[], by simp, by simp⟩, fun h => h⟩
  · rw [decodeStep_decode_branch l1 b0 t hd]
    exact ⟨rfl, fun h => h, ⟨[], by simp, by simp⟩, fun h => h⟩

theorem evolves_next (l : Lexer) : Evolves (· = ItemError) l (Lexer.Next l).2 := by
  rw [next_eq_refill]
  refine Evolves.trans ?_ ((evolves_decodeStep _).mono (by simp))
  split
  · exact evolves_readChunk l
  · exact Evolves.refl _ l

theorem evolves_backup (l : Lexer) (P : Int → Prop) : Evolves P l l.Backup := by
  dsimp only [Lexer.Backup]
  split
  · exact Evolves.refl _ l
  · exact ⟨rfl, fun h => h, ⟨[], by simp, by simp⟩, fun h => h⟩

theorem evolves_peek (l : Lexer) : Evolves (· = ItemError) l (Lexer.Peek l).2 :=
  Evolves.trans (evolves_next l) (evolves_backup _ _)

theorem evolves_skip (l : Lexer) (P : Int → Prop) : Evolves P l l.Skip := by
  dsimp only [Lexer.Skip]
  split
  · exact ⟨rfl, fun h => h, ⟨[], by simp, by simp⟩, fun h => h⟩
  · exact ⟨rfl, fun h => h, ⟨[], by simp, by simp⟩, fun h => h⟩

theorem evolves_errorf (l : Lexer) (msg : String) :
    Evolves (· = ItemError) l (l.Errorf msg) :=
  ⟨rfl, fun h => h, ⟨[⟨ItemError, l.rpos, ItemVal.str msg⟩], rfl, by simp⟩, fun h => h⟩

theorem evolves_emit (l : Lexer) (t : Int) : Evolves (· = t) l (l.Emit t) := by
  refine Evolves.trans (b := { l with out := l.out ++
      [⟨t, l.rpos - (l.pos - l.start),
        ItemVal.raw ((l.buf.drop l.start.toNat).take (l.pos - l.start).toNat)⟩] })
    ⟨rfl, fun h => h, ⟨_, rfl, by simp⟩, fun h => h⟩ (evolves_skip _ _)

theorem evolves_accept (l : Lexer) (valid : String) :
    Evolves (· = ItemError) l (l.Accept valid).2 := by
  dsimp only [Lexer.Accept]
  split
  · exact evolves_next l
  · exact Evolves.trans (evolves_next l) (evolves_backup _ _)

theorem evolves_except (l : Lexer) (invalid : String) :
    Evolves (· = ItemError) l (l.Except invalid).2 := by
  dsimp only [Lexer.Except]
  split
  · exact evolves_next l
  · exact Evolves.trans (evolves_next l) (evolves_backup _ _)

/-! Unfolding equations for the fuel-indexed loops, and the proof that
any fuel above the measure computes the same result, so that the
wrappers (which pass lexFuel) realize the Go loops exactly. -/

theorem acceptRunLoop_succ (f : Nat) (valid : String) (l : Lexer) :
    acceptRunLoop (f + 1) valid l =
      if (Lexer.Next l).1 = EOF then (Lexer.Next l).2
      else if ¬ strContainsRune valid (Lexer.Next l).1 then (Lexer.Next l).2
      else acceptRunLoop f valid (Lexer.Next l).2 := rfl

theorem exceptRunLoop_succ (f : Nat) (invalid : String) (l : Lexer) :
    exceptRunLoop (f + 1) invalid l =
      if (Lexer.Next l).1 = EOF then (Lexer.Next l).2
      else if strContainsRune invalid (Lexer.Next l).1 then (Lexer.Next l).2
      else exceptRunLoop f invalid (Lexer.Next l).2 := rfl

theorem scanWhile_succ (f : Nat) (p : Int → Bool) (l : Lexer) :
    scanWhile (f + 1) p l =
      if (Lexer.Next l).1 = EOF then Lexer.Next l
      else if p (Lexer.Next l).1 then scanWhile f p (Lexer.Next l).2
      else Lexer.Next l := rfl

theorem quoteLoop_succ (f : Nat) (l : Lexer) :
    quoteLoop (f + 1) l =
      if (Lexer.Next l).1 = 92 then quoteLoop f (Lexer.Next (Lexer.Next l).2).2
      else if (Lexer.Next l).1 = 10 then (QuoteExit.newline, (Lexer.Next l).2)
      else if (Lexer.Next l).1 = EOF then (QuoteExit.eofHit, (Lexer.Next l).2)
      else if (Lexer.Next l).1 = 34 then (QuoteExit.closeQuote, (Lexer.Next l).2)
      else quoteLoop f (Lexer.Next l).2 := rfl

theorem acceptRunLoop_congr (valid : String) :
    ∀ f g l, lexMeasure l < f → lexMeasure l < g →
      acceptRunLoop f valid l = acceptRunLoop g valid l := by
  intro f
  induction f with
  | zero => intro g l hf _; exact absurd hf (by omega)
  | succ f ih =>
    intro g l hf hg
    obtain ⟨g1, rfl⟩ : ∃ g1, g = g1 + 1 := ⟨g - 1, by omega⟩
    rw [acceptRunLoop_succ, acceptRunLoop_succ]
    by_cases h1 : (Lexer.Next l).1 = EOF
    · rw [if_pos h1, if_pos h1]
    · rw [if_neg h1, if_neg h1]
      by_cases h2 : strContainsRune valid (Lexer.Next l).1
      · rw [if_neg (by simpa using h2), if_neg (by simpa using h2)]
        have hm := next_measure_lt l h1
        exact ih _ _ (by omega) (by omega)
      · rw [if_pos (by simpa using h2), if_pos (by simpa using h2)]

theorem exceptRunLoop_congr (invalid : String) :
    ∀ f g l, lexMeasure l < f → lexMeasure l < g →
      exceptRunLoop f invalid l = exceptRunLoop g invalid l := by
  intro f
  induction f with
  | zero => intro g l hf _; exact absurd hf (by omega)
  | succ f ih =>
    intro g l hf hg
    obtain ⟨g1, rfl⟩ : ∃ g1, g = g1 + 1 := ⟨g - 1, by omega⟩
    rw [exceptRunLoop_succ, exceptRunLoop_succ]
    by_cases h1 : (Lexer.Next l).1 = EOF
    · rw [if_pos h1, if_pos h1]
    · rw [if_neg h1, if_neg h1]
      by_cases h2 : strContainsRune invalid (Lexer.Next l).1
      · rw [if_pos h2, if_pos h2]
      · rw [if_neg h2, if_neg h2]
        have hm := next_measure_lt l h1
        exact ih _ _ (by omega) (by omega)

theorem scanWhile_congr (p : Int → Bool) :
    ∀ f g l, lexMeasure l < f → lexMeasure l < g →
      scanWhile f p l = scanWhile g p l := by
  intro f
  induction f with
  | zero => intro g l hf _; exact absurd hf (by omega)
  | succ f ih =>
    intro g l hf hg
    obtain ⟨g1, rfl⟩ : ∃ g1, g = g1 + 1 := ⟨g - 1, by omega⟩
    rw [scanWhile_succ, scanWhile_succ]
    by_cases h1 : (Lexer.Next l).1 = EOF
    · rw [if_pos h1, if_pos h1]
    · rw [if_neg h1, if_neg h1]
      by_cases h2 : p (Lexer.Next l).1
      · rw [if_pos h2, if_pos h2]
        have hm := next_measure_lt l h1
        exact ih _ _ (by omega) (by omega)
      · rw [if_neg h2, if_neg h2]

theorem quoteLoop_congr :
    ∀ f g l, lexMeasure l < f → lexMeasure l < g →
      quoteLoop f l = quoteLoop g l := by
  intro f
  induction f with
  | zero => intro g l hf _; exact absurd hf (by omega)
  | succ f ih =>
    intro g l hf hg
    obtain ⟨g1, rfl⟩ : ∃ g1, g = g1 + 1 := ⟨g - 1, by omega⟩
    rw [quoteLoop_succ, quoteLoop_succ]
    by_cases h1 : (Lexer.Next l).1 = 92
    · rw [if_pos h1, if_pos h1]
      have hne : (Lexer.Next l).1 ≠ EOF := by rw [h1]; decide
      have hm := next_measure_lt l hne
      have hm2 := next_measure_le (Lexer.Next l).2
      exact ih _ _ (by omega) (by omega)
    · rw [if_neg h1, if_neg h1]
      by_cases h2 : (Lexer.Next l).1 = 10
      · rw [if_pos h2, if_pos h2]
      · rw [if_neg h2, if_neg h2]
        by_cases h3 : (Lexer.Next l).1 = EOF
        · rw [if_pos h3, if_pos h3]
        · rw [if_neg h3, if_neg h3]
          by_cases h4 : (Lexer.Next l).1 = 34
          · rw [if_pos h4, if_pos h4]
          · rw [if_neg h4, if_neg h4]
            have hm := next_measure_lt l h3
            exact ih _ _ (by omega) (by omega)

/-! Evolves lemmas for the loops, their wrappers and the scanners. -/

theorem evolves_acceptRunLoop (valid : String) :
    ∀ f l, lexMeasure l < f → Evolves (· = ItemError) l (acceptRunLoop f valid l) := by
  intro f
  induction f with
  | zero => intro l hf; exact absurd hf (by omega)
  | succ f ih =>
    intro l hf
    rw [acceptRunLoop_succ]
    by_cases h1 : (Lexer.Next l).1 = EOF
    · rw [if_pos h1]; exact evolves_next l
    · rw [if_neg h1]
      by_cases h2 : strContainsRune valid (Lexer.Next l).1
      · rw [if_neg (by simpa using h2)]
        have hm := next_measure_lt l h1
        exact Evolves.trans (evolves_next l) (ih _ (by omega))
      · rw [if_pos (by simpa using h2)]; exact evolves_next l

theorem evolves_exceptRunLoop (invalid : String) :
    ∀ f l, lexMeasure l < f → Evolves (· = ItemError) l (exceptRunLoop f invalid l) := by
  intro f
  induction f with
  | zero => intro l hf; exact absurd hf (by omega)
  | succ f ih =>
    intro l hf
    rw [exceptRunLoop_succ]
    by_cases h1 : (Lexer.Next l).1 = EOF
    · rw [if_pos h1]; exact evolves_next l
    · rw [if_neg h1]
      by_cases h2 : strContainsRune invalid (Lexer.Next l).1
      · rw [if_pos h2]; exact evolves_next l
      · rw [if_neg h2]
        have hm := next_measure_lt l h1
        exact Evolves.trans (evolves_next l) (ih _ (by omega))

theorem evolves_scanWhile (p : Int → Bool) :
    ∀ f l, lexMeasure l < f → Evolves (· = ItemError) l (scanWhile f p l).2 := by
  intro f
  induction f with
  | zero => intro l hf; exact absurd hf (by omega)
  | succ f ih =>
    intro l hf
    rw [scanWhile_succ]
    by_cases h1 : (Lexer.Next l).1 = EOF
    · rw [if_pos h1]; exact evolves_next l
    · rw [if_neg h1]
      by_cases h2 : p (Lexer.Next l).1
      · rw [if_pos h2]
        have hm := next_measure_lt l h1
        exact Evolves.trans (evolves_next l) (ih _ (by omega))
      · rw [if_neg h2]; exact evolves_next l

theorem evolves_quoteLoop :
    ∀ f l, lexMeasure l < f → Evolves (· = ItemError) l (quoteLoop f l).2 := by
  intro f
  induction f with
  | zero => intro l hf; exact absurd hf (by omega)
  | succ f ih =>
    intro l hf
    rw [quoteLoop_succ]
    by_cases h1 : (Lexer.Next l).1 = 92
    · rw [if_pos h1]
      have hne : (Lexer.Next l).1 ≠ EOF := by rw [h1]; decide
      have hm := next_measure_lt l hne
      have hm2 := next_measure_le (Lexer.Next l).2
      exact Evolves.trans (evolves_next l)
        (Evolves.trans (evolves_next _) (ih _ (by omega)))
    · rw [if_neg h1]
      by_cases h2 : (Lexer.Next l).1 = 10
      · rw [if_pos h2]; exact evolves_next l
      · rw [if_neg h2]
        by_cases h3 : (Lexer.Next l).1 = EOF
        · rw [if_pos h3]; exact evolves_next l
        · rw [if_neg h3]
          by_cases h4 : (Lexer.Next l).1 = 34
          · rw [if_pos h4]; exact evolves_next l
          · rw [if_neg h4]
            have hm := next_measure_lt l h3
            exact Evolves.trans (evolves_next l) (ih _ (by omega))

theorem evolves_acceptRun (l : Lexer) (valid : String) :
    Evolves (· = ItemError) l (l.AcceptRun valid).2 := by
  unfold Lexer.AcceptRun
  exact Evolves.trans (evolves_acceptRunLoop valid _ l (by unfold lexFuel; omega))
    (evolves_backup _ _)

theorem evolves_exceptRun (l : Lexer) (invalid : String) :
    Evolves (· = ItemError) l (l.ExceptRun invalid).2 := by
  unfold Lexer.ExceptRun
  exact Evolves.trans (evolves_exceptRunLoop invalid _ l (by unfold lexFuel; omega))
    (evolves_backup _ _)

theorem evolves_skipPast (l : Lexer) (s : String) :
    Evolves (· = ItemError) l (skipPast s l) := by
  have h2 : ∀ l2 : Lexer, Evolves (· = ItemError) l2
      (if (l2.AcceptRun s).1 then (l2.AcceptRun s).2.Skip else (l2.AcceptRun s).2) := by
    intro l2
    split
    · exact Evolves.trans (evolves_acceptRun _ s) (evolves_skip _ _)
    · exact evolves_acceptRun _ s
  have h1 : Evolves (· = ItemError) l
      (if (l.ExceptRun s).1 then (l.ExceptRun s).2.Skip else (l.ExceptRun s).2) := by
    split
    · exact Evolves.trans (evolves_exceptRun l s) (evolves_skip _ _)
    · exact evolves_exceptRun l s
  exact Evolves.trans h1 (h2 _)

theorem evolves_runErrFn (e : ErrFn) (l : Lexer) :
    Evolves (· = ItemError) l (runErrFn e l) := by
  cases e with
  | skipPast s => exact evolves_skipPast l s

/-- Item types a scanner may send: its own type t or an error. -/
def ScanTypes (t : Int) (k : Int) : Prop :=
  k = t ∨ k = ItemError

theorem evolves_err_scan {t : Int} {l l2 : Lexer} (h : Evolves (· = ItemError) l l2) :
    Evolves (ScanTypes t) l l2 :=
  h.mono (fun _ hk => Or.inr hk)

theorem evolves_classTail (l : Lexer) (t : Int) (emit : Bool) (r : Int) (what : String) :
    Evolves (ScanTypes t) l (classTail l t emit r what).2 := by
  dsimp only [classTail]
  split
  · split
    · exact Evolves.trans (evolves_err_scan (evolves_backup l _))
        ((evolves_emit _ t).mono (fun k hk => Or.inl hk))
    · exact evolves_err_scan (Evolves.trans (evolves_backup l _) (evolves_skip _ _))
  · exact evolves_err_scan (Evolves.trans (evolves_backup l _) (evolves_errorf _ _))

theorem evolves_digits (l : Lexer) (t : Int) (emit : Bool) :
    Evolves (ScanTypes t) l (Digits l t emit).2 := by
  dsimp only [Digits]
  exact Evolves.trans
    (evolves_err_scan (evolves_scanWhile unicodeIsDigit _ l (by unfold lexFuel; omega)))
    (evolves_classTail _ t emit _ _)

theorem evolves_letters (l : Lexer) (t : Int) (emit : Bool) :
    Evolves (ScanTypes t) l (Letters l t emit).2 := by
  dsimp only [Letters]
  exact Evolves.trans
    (evolves_err_scan (evolves_scanWhile unicodeIsLetter _ l (by unfold lexFuel; omega)))
    (evolves_classTail _ t emit _ _)

theorem evolves_spaces (l : Lexer) (t : Int) (emit : Bool) :
    Evolves (ScanTypes t) l (Spaces l t emit).2 := by
  dsimp only [Spaces]
  exact Evolves.trans
    (evolves_err_scan (evolves_scanWhile unicodeIsSpace _ l (by unfold lexFuel; omega)))
    (evolves_classTail _ t emit _ _)

theorem evolves_quote (l : Lexer) (t : Int) (emit : Bool) :
    Evolves (ScanTypes t) l (Quote l t emit).2 := by
  dsimp only [Quote]
  split
  · exact evolves_err_scan (Evolves.trans (evolves_next l)
      (Evolves.trans (evolves_errorf _ _) (evolves_backup _ _)))
  · have hq : Evolves (· = ItemError) l (quoteLoop (lexFuel (Lexer.Next l).2) (Lexer.Next l).2).2 :=
      Evolves.trans (evolves_next l) (evolves_quoteLoop _ _ (by unfold lexFuel; omega))
    split
    · exact evolves_err_scan (Evolves.trans hq
        (Evolves.trans (evolves_errorf _ _) (evolves_backup _ _)))
    · exact evolves_err_scan (Evolves.trans hq (evolves_errorf _ _))
    · split
      · exact Evolves.trans (evolves_err_scan hq) ((evolves_emit _ t).mono (fun k hk => Or.inl hk))
      · exact evolves_err_scan (Evolves.trans hq (evolves_skip _ _))

theorem evolves_scanNumber (l : Lexer) :
    Evolves (· = ItemError) l (l.scanNumber).2 := by
  dsimp only [Lexer.scanNumber]
  have h1 : Evolves (· = ItemError) l (l.Accept "+-").2 := evolves_accept l _
  have h2 : Evolves (· = ItemError) l ((l.Accept "+-").2.Accept "0").2 :=
    Evolves.trans h1 (evolves_accept _ _)
  have h3 : Evolves (· = ItemError) l
      (if ((l.Accept "+-").2.Accept "0").1 = true
        then ((l.Accept "+-").2.Accept "0").2.Accept "xX"
        else (false, ((l.Accept "+-").2.Accept "0").2)).2 := by
    split
    · exact Evolves.trans h2 (evolves_accept _ _)
    · exact h2
  have h4 : Evolves (· = ItemError) l
      ((if ((l.Accept "+-").2.Accept "0").1 = true
        then ((l.Accept "+-").2.Accept "0").2.Accept "xX"
        else (false, ((l.Accept "+-").2.Accept "0").2)).2.AcceptRun
          (if ((l.Accept "+-").2.Accept "0").1 = true ∧
              (if ((l.Accept "+-").2.Accept "0").1 = true
                then ((l.Accept "+-").2.Accept "0").2.Accept "xX"
                else (false, ((l.Accept "+-").2.Accept "0").2)).1 = true
            then "0123456789abcdefABCDEF" else "0123456789")).2 :=
    Evolves.trans h3 (evolves_acceptRun _ _)
  generalize (if ((l.Accept "+-").2.Accept "0").1 = true ∧
      (if ((l.Accept "+-").2.Accept "0").1 = true
        then ((l.Accept "+-").2.Accept "0").2.Accept "xX"
        else (false, ((l.Accept "+-").2.Accept "0").2)).1 = true
      then "0123456789abcdefABCDEF" else "0123456789") = digits at h4 ⊢
  generalize hr1 : (if ((l.Accept "+-").2.Accept "0").1 = true
      then ((l.Accept "+-").2.Accept "0").2.Accept "xX"
      else (false, ((l.Accept "+-").2.Accept "0").2)).2.AcceptRun digits = r1 at h4 ⊢
  have h5 : Evolves (· = ItemError) l (r1.2.Accept ".").2 :=
    Evolves.trans h4 (evolves_accept _ _)
  have h6 : Evolves (· = ItemError) l
      (if (r1.2.Accept ".").1 = true then (r1.2.Accept ".").2.AcceptRun digits
        else (false, (r1.2.Accept ".").2)).2 := by
    split
    · exact Evolves.trans h5 (evolves_acceptRun _ _)
    · exact h5
  generalize hr2 : (if (r1.2.Accept ".").1 = true then (r1.2.Accept ".").2.AcceptRun digits
      else (false, (r1.2.Accept ".").2)) = r2 at h6 ⊢
  have h7 : Evolves (· = ItemError) l (r2.2.Accept "eE").2 :=
    Evolves.trans h6 (evolves_accept _ _)
  have h8 : Evolves (· = ItemError) l
      (if (r2.2.Accept "eE").1 = true
        then (((r2.2.Accept "eE").2.Accept "+-").2.AcceptRun "0123456789").2
        else (r2.2.Accept "eE").2) := by
    split
    · exact Evolves.trans h7 (Evolves.trans (evolves_accept _ _) (evolves_acceptRun _ _))
    · exact h7
  generalize he3 : (if (r2.2.Accept "eE").1 = true
      then (((r2.2.Accept "eE").2.Accept "+-").2.AcceptRun "0123456789").2
      else (r2.2.Accept "eE").2) = e3 at h8 ⊢
  have h9 : Evolves (· = ItemError) l (e3.Accept "i").2.Peek.2 :=
    Evolves.trans h8 (Evolves.trans (evolves_accept _ _) (evolves_peek _))
  split
  · exact Evolves.trans h9 (evolves_next _)
  · exact h9

theorem evolves_number (l : Lexer) (t : Int) (emit : Bool) :
    Evolves (ScanTypes t) l (Number l t emit).2 := by
  dsimp only [Number]
  generalize hs1 : l.scanNumber = s1
  have h1 : Evolves (· = ItemError) l s1.2 := by
    rw [← hs1]; exact evolves_scanNumber l
  split
  · exact evolves_err_scan (Evolves.trans h1 (evolves_errorf _ _))
  · generalize hpk : s1.2.Peek = pk
    have h2 : Evolves (· = ItemError) l pk.2 := by
      rw [← hpk]; exact Evolves.trans h1 (evolves_peek _)
    split
    · generalize hs2 : pk.2.scanNumber = s2
      have h3 : Evolves (· = ItemError) l s2.2 := by
        rw [← hs2]; exact Evolves.trans h2 (evolves_scanNumber _)
      split
      · exact evolves_err_scan (Evolves.trans h3 (evolves_errorf _ _))
      · split
        · exact Evolves.trans (evolves_err_scan h3)
            ((evolves_emit _ t).mono (fun k hk => Or.inl hk))
        · exact evolves_err_scan (Evolves.trans h3 (evolves_skip _ _))
    · split
      · exact Evolves.trans (evolves_err_scan h2)
          ((evolves_emit _ t).mono (fun k hk => Or.inl hk))
      · exact evolves_err_scan (Evolves.trans h2 (evolves_skip _ _))

theorem evolves_factory_tail (l0 l : Lexer) (t : Int) (emit : Bool) (b : Bool)
    (needed : Bool) (msg : String) (h : Evolves (· = ItemError) l0 l) :
    Evolves (ScanTypes t) l0
      (if b then (if emit then (true, l.Emit t) else (true, l.Skip))
       else if needed then
         (false, l.Peek.2.Errorf (msg ++ quoteRune l.Peek.1))
       else (false, l)).2 := by
  split
  · split
    · exact Evolves.trans (evolves_err_scan h) ((evolves_emit _ t).mono (fun k hk => Or.inl hk))
    · exact evolves_err_scan (Evolves.trans h (evolves_skip _ _))
  · split
    · exact evolves_err_scan (Evolves.trans h
        (Evolves.trans (evolves_peek _) (evolves_errorf _ _)))
    · exact evolves_err_scan h

theorem evolves_runScan (sf : ScanFn) (l : Lexer) (t : Int) (emit : Bool) :
    Evolves (ScanTypes t) l (runScan sf l t emit).2 := by
  cases sf with
  | accept valid needed =>
    exact evolves_factory_tail l (l.Accept valid).2 t emit (l.Accept valid).1 needed _
      (evolves_accept l valid)
  | acceptRun valid needed =>
    exact evolves_factory_tail l (l.AcceptRun valid).2 t emit (l.AcceptRun valid).1 needed _
      (evolves_acceptRun l valid)
  | except invalid needed =>
    exact evolves_factory_tail l (l.Except invalid).2 t emit (l.Except invalid).1 needed _
      (evolves_except l invalid)
  | exceptRun invalid needed =>
    exact evolves_factory_tail l (l.ExceptRun invalid).2 t emit (l.ExceptRun invalid).1 needed _
      (evolves_exceptRun l invalid)
  | quote => exact evolves_quote l t emit
  | digits => exact evolves_digits l t emit
  | letters => exact evolves_letters l t emit
  | spaces => exact evolves_spaces l t emit
  | number => exact evolves_number l t emit

/-- Item types one driver pass may send: a declared field type, an
error, or the end-of-record type. -/
def PassTypes (states : List Binding) (k : Int) : Prop :=
  (∃ b ∈ states, k = b.itemType) ∨ k = ItemError ∨ k = ItemEOR

theorem evolves_passStates :
    ∀ (states : List Binding) (i eor : Nat) (l : Lexer),
      Evolves (PassTypes states) l (passStates states i eor l) := by
  intro states
  induction states with
  | nil => intro i eor l; exact Evolves.refl _ l
  | cons b rest ih =>
    intro i eor l
    dsimp only [passStates]
    split
    · refine Evolves.trans (b := if i = eor ∨ (runScan b.stateFn l b.itemType b.emit).2.eof
          then (runScan b.stateFn l b.itemType b.emit).2.Emit ItemEOR
          else (runScan b.stateFn l b.itemType b.emit).2) ?_ ?_
      · refine Evolves.trans ((evolves_runScan b.stateFn l b.itemType b.emit).mono ?_) ?_
        · intro k hk
          rcases hk with hk | hk
          · exact Or.inl ⟨b, by simp, hk⟩
          · exact Or.inr (Or.inl hk)
        · split
          · exact (evolves_emit _ ItemEOR).mono (fun k hk => Or.inr (Or.inr hk))
          · exact Evolves.refl _ _
      · refine (ih (i + 1) eor _).mono ?_
        intro k hk
        rcases hk with ⟨b2, hb2, hk⟩ | hk
        · exact Or.inl ⟨b2, List.mem_cons_of_mem _ hb2, hk⟩
        · exact Or.inr hk
    · split
      · refine Evolves.trans (b := (runScan b.stateFn l b.itemType b.emit).2)
          ((evolves_runScan b.stateFn l b.itemType b.emit).mono ?_)
          ((evolves_runErrFn _ _).mono ?_)
        · intro k hk
          rcases hk with hk | hk
          · exact Or.inl ⟨b, by simp, hk⟩
          · exact Or.inr (Or.inl hk)
        · intro k hk
          exact Or.inr (Or.inl hk)
      · refine (evolves_runScan b.stateFn l b.itemType b.emit).mono ?_
        intro k hk
        rcases hk with hk | hk
        · exact Or.inl ⟨b, by simp, hk⟩
        · exact Or.inr (Or.inl hk)

/-! Field-level case analysis of Backup and Next, used by the cursor
claims. -/

theorem backup_eof_id (l : Lexer) (h : l.eof = true) : l.Backup = l := by
  simp [Lexer.Backup, h]

theorem backup_not_eof (l : Lexer) (h : l.eof = false) :
    l.Backup = { l with pos := l.pos - l.width, rpos := l.rpos - l.width } := by
  simp [Lexer.Backup, h]

theorem backup_start (l : Lexer) : l.Backup.start = l.start := by
  dsimp only [Lexer.Backup]
  split <;> rfl

theorem backup_out (l : Lexer) : l.Backup.out = l.out := by
  dsimp only [Lexer.Backup]
  split <;> rfl

theorem next_cases (l : Lexer) :
    ((Lexer.Next l).1 = EOF ∧ (Lexer.Next l).2.pos = l.pos ∧ (Lexer.Next l).2.rpos = l.rpos
      ∧ (Lexer.Next l).2.width = l.width ∧ (Lexer.Next l).2.eof = true)
    ∨ ((Lexer.Next l).1 ≠ EOF
      ∧ (Lexer.Next l).2.pos = l.pos + (Lexer.Next l).2.width
      ∧ (Lexer.Next l).2.rpos = l.rpos + (Lexer.Next l).2.width
      ∧ 1 ≤ (Lexer.Next l).2.width
      ∧ (Lexer.Next l).2.eof = l.eof) := by
  rw [next_eq_refill]
  set l1 := if (l.buf.length : Int) - l.pos < UTFMax then l.readChunk else l with hl1
  have hpos : l1.pos = l.pos := by
    rw [hl1]; split; exacts [readChunk_pos l, rfl]
  have hrpos : l1.rpos = l.rpos := by
    rw [hl1]; split; exacts [readChunk_rpos l, rfl]
  have hwidth : l1.width = l.width := by
    rw [hl1]; split; exacts [readChunk_width l, rfl]
  have heof : l1.eof = l.eof := by
    rw [hl1]; split; exacts [readChunk_eof l, rfl]
  rcases hd : l1.buf.drop l1.pos.toNat with _ | ⟨b0, t⟩
  · rw [decodeStep_eof_branch l1 hd]
    exact Or.inl ⟨rfl, hpos, hrpos, hwidth, rfl⟩
  · rw [decodeStep_decode_branch l1 b0 t hd]
    refine Or.inr ⟨?_, ?_, ?_, ?_, ?_⟩
    · have := decodeRune_fst_nonneg b0 t
      show (decodeRune (b0 :: t)).1 ≠ EOF
      simp only [EOF]
      omega
    · show l1.pos + (decodeRune (b0 :: t)).2 = l.pos + (decodeRune (b0 :: t)).2
      rw [hpos]
    · show l1.rpos + (decodeRune (b0 :: t)).2 = l.rpos + (decodeRune (b0 :: t)).2
      rw [hrpos]
    · exact decodeRune_width_pos b0 t
    · exact heof

theorem next_start (l : Lexer) : (Lexer.Next l).2.start = l.start := by
  rw [next_eq_refill, decodeStep_start]
  split
  · exact readChunk_start l
  · rfl

theorem next_eof_iff (l : Lexer) :
    (Lexer.Next l).2.eof = true ↔ ((Lexer.Next l).1 = EOF ∨ l.eof = true) := by
  rcases next_cases l with ⟨h1, _, _, _, h5⟩ | ⟨h1, _, _, _, h5⟩
  · simp [h1, h5]
  · rw [h5]
    simp [h1]

/-- Evolution through a completed driver loop. -/
theorem runLoop_evolves :
    ∀ (fuel : Nat) (l l2 : Lexer), runLoop fuel l = some l2 →
      Evolves (fun _ => True) l l2 := by
  intro fuel
  induction fuel with
  | zero => intro l l2 h; exact absurd h (by simp [runLoop])
  | succ fuel ih =>
    intro l l2 h
    dsimp only [runLoop] at h
    split at h
    · have hstep : Evolves (fun _ => True) l
          ((passStates l.record.states 0 (l.record.states.length - 1) l).Peek.2.Emit
            ItemEOF) := by
        refine Evolves.trans
          (b := passStates l.record.states 0 (l.record.states.length - 1) l)
          ((evolves_passStates l.record.states 0 (l.record.states.length - 1) l).mono
            (fun _ _ => trivial)) ?_
        refine Evolves.trans ((evolves_peek _).mono (fun _ _ => trivial)) ?_
        exact (evolves_emit _ ItemEOF).mono (fun _ _ => trivial)
      rw [← Option.some_inj.mp h]
      exact hstep
    · refine Evolves.trans
        (b := (passStates l.record.states 0 (l.record.states.length - 1) l).Peek.2)
        ?_ (ih _ _ h)
      refine Evolves.trans
        (b := passStates l.record.states 0 (l.record.states.length - 1) l)
        ((evolves_passStates l.record.states 0 (l.record.states.length - 1) l).mono
          (fun _ _ => trivial)) ?_
      exact (evolves_peek _).mono (fun _ _ => trivial)

/-- C7 record shape used nowhere else: cosmetic binding for witnesses. -/
def okRecord : Record :=
  ⟨1, [⟨4, ScanFn.acceptRun "a" true, true⟩], some (ErrFn.skipPast "\n")⟩

/-- C7: NewLexer returns an error exactly when the field-step list is
empty, the buffer-size hint is not positive, or the recovery routine is
missing; otherwise it returns the fresh lexer and no error, and in the
error cases no lexer value exists at all. -/
theorem newLexer_validation (name : String) (chunks : List ReadResult) (record : Record) :
    ((∃ e, NewLexer name chunks record = Except.error e) ↔
      (record.states = [] ∨ record.buflen < 1 ∨ record.errorFn = none)) ∧
    (¬ (record.states = [] ∨ record.buflen < 1 ∨ record.errorFn = none) →
      NewLexer name chunks record = Except.ok
        { name := name, chunks := chunks, record := record, out := [], eof := false,
          buf := [], bufCap := 0, rpos := 0, pos := 0, start := 0, width := 0 }) := by
  unfold NewLexer
  constructor
  · constructor
    · intro ⟨e, he⟩
      by_cases h1 : record.states.length = 0
      · exact Or.inl (List.length_eq_zero.mp h1)
      · rw [if_neg h1] at he
        by_cases h2 : record.buflen < 1
        · exact Or.inr (Or.inl h2)
        · rw [if_neg h2] at he
          by_cases h3 : record.errorFn = none
          · exact Or.inr (Or.inr h3)
          · rw [if_neg h3] at he
            exact absurd he (by simp)
    · intro h
      rcases h with h | h | h
      · exact ⟨_, by rw [if_pos (by simp [h])]⟩
      · by_cases h1 : record.states.length = 0
        · exact ⟨_, by rw [if_pos h1]⟩
        · exact ⟨_, by rw [if_neg h1, if_pos h]⟩
      · by_cases h1 : record.states.length = 0
        · exact ⟨_, by rw [if_pos h1]⟩
        · by_cases h2 : record.buflen < 1
          · exact ⟨_, by rw [if_neg h1, if_pos h2]⟩
          · exact ⟨_, by rw [if_neg h1, if_neg h2, if_pos h]⟩
  · intro h
    push_neg at h
    obtain ⟨h1, h2, h3⟩ := h
    rw [if_neg (by simpa using fun hl => h1 (List.length_eq_zero.mp hl)),
      if_neg (by omega), if_neg h3]

/-- Witness for C7 at concrete record shapes: a zero buffer-size hint is
rejected, and a well-formed shape constructs the initial lexer. -/
theorem newLexer_validation_witness :
    (∃ e, NewLexer "w" [] ⟨0, okRecord.states, okRecord.errorFn⟩ = Except.error e) ∧
    NewLexer "w" [] okRecord = Except.ok
      { name := "w", chunks := [], record := okRecord, out := [], eof := false,
        buf := [], bufCap := 0, rpos := 0, pos := 0, start := 0, width := 0 } := by
  constructor
  · exact (newLexer_validation "w" [] _).1.mpr (Or.inr (Or.inl (by decide)))
  · exact (newLexer_validation "w" [] okRecord).2 (by simp [okRecord])

/-- C5 amended: whenever the eof flag is not yet set, Peek returns the
rune Next would return and restores the buffer position, the absolute
position and the item start, consuming nothing. -/
theorem peek_preserves_cursor (l : Lexer) (h : l.eof = false) :
    (Lexer.Peek l).1 = (Lexer.Next l).1 ∧ (Lexer.Peek l).2.pos = l.pos
      ∧ (Lexer.Peek l).2.rpos = l.rpos ∧ (Lexer.Peek l).2.start = l.start := by
  refine ⟨rfl, ?_, ?_, ?_⟩ <;>
    rcases next_cases l with ⟨h1, hp, hr, hw, he⟩ | ⟨h1, hp, hr, hw, he⟩
  · show (Lexer.Next l).2.Backup.pos = l.pos
    rw [backup_eof_id _ he, hp]
  · show (Lexer.Next l).2.Backup.pos = l.pos
    rw [backup_not_eof _ (by rw [he, h])]
    dsimp only
    have hw2 : (Lexer.Next l).2.width = (Lexer.Next l).2.width := rfl
    omega
  · show (Lexer.Next l).2.Backup.rpos = l.rpos
    rw [backup_eof_id _ he, hr]
  · show (Lexer.Next l).2.Backup.rpos = l.rpos
    rw [backup_not_eof _ (by rw [he, h])]
    dsimp only
    omega
  · show (Lexer.Next l).2.Backup.start = l.start
    rw [backup_start, next_start]
  · show (Lexer.Next l).2.Backup.start = l.start
    rw [backup_start, next_start]

/-- Fresh lexer over a reader delivering the single byte 0x61. -/
def freshOverA : Lexer :=
  ⟨"w", [ReadResult.bytes [97]], okRecord, [], false, [], 0, 0, 0, 0, 0⟩

/-- Witness for C5 at the fresh lexer over the single byte 0x61. -/
theorem peek_preserves_cursor_witness :
    freshOverA.eof = false ∧ (Lexer.Peek freshOverA).2.pos = 0 := by
  refine ⟨rfl, ?_⟩
  exact (peek_preserves_cursor _ rfl).2.1

/-- State reached after a clean end-of-source signal followed by a read
that did deliver the byte 0x61: the eof flag is set while an undecoded
byte sits in the buffer. -/
def eofWithByte : Lexer :=
  ⟨"", [], ⟨1, [], none⟩, [], true, [97], 1, 5, 0, 0, 1⟩

/-- C5 counterexample: on a state whose eof flag is set while a byte
remains in the buffer, Peek decodes and keeps the consumed position —
the buffer position changes from 0 to 1, so Peek is not side-effect
free on every lexer state. -/
theorem peek_consumes_after_eof :
    (Lexer.Peek eofWithByte).1 = 97 ∧ (Lexer.Peek eofWithByte).2.pos = 1
      ∧ eofWithByte.pos = 0 ∧ (Lexer.Peek eofWithByte).2.rpos = 6
      ∧ eofWithByte.rpos = 5 := by
  decide

/-- Buffer state with capacity 10, ten bytes buffered, and position 9:
the distance from pos to the end of the capacity is exactly ten per
cent of the capacity, not below it. -/
def skipBoundary : Lexer :=
  ⟨"", [], ⟨1, [], none⟩, [], false, [48, 49, 50, 51, 52, 53, 54, 55, 56, 57], 10, 9, 9, 0, 1⟩

/-- C9 counterexample: Skip compacts the buffer (position resets to 0
and the nine consumed bytes are discarded) although the remaining
distance, one byte, is not below ten per cent of the capacity, ten
bytes — it is exactly ten per cent.  The compaction test is at-most,
not strictly-below. -/
theorem skip_compacts_at_exact_tenth :
    (Lexer.Skip skipBoundary).pos = 0 ∧ (Lexer.Skip skipBoundary).buf = [57]
      ∧ ¬ ((skipBoundary.bufCap : Int) - skipBoundary.pos
            < (skipBoundary.bufCap : Int) / 10) := by
  decide

/-- C9 amended: Skip emits nothing and advances item-start to the
current position; it discards the bytes before pos and resets pos and
item-start to zero exactly when the distance from pos to the end of the
allocated capacity is at most one tenth (by integer division) of that
capacity, and otherwise leaves the buffer and pos unchanged. -/
theorem skip_spec (l : Lexer) :
    (Lexer.Skip l).out = l.out ∧ (Lexer.Skip l).start = (Lexer.Skip l).pos ∧
    ((l.bufCap : Int) - l.pos ≤ (l.bufCap : Int) / 10 →
      (Lexer.Skip l).buf = l.buf.drop l.pos.toNat ∧ (Lexer.Skip l).pos = 0
        ∧ (Lexer.Skip l).start = 0) ∧
    ((l.bufCap : Int) / 10 < (l.bufCap : Int) - l.pos →
      (Lexer.Skip l).buf = l.buf ∧ (Lexer.Skip l).pos = l.pos
        ∧ (Lexer.Skip l).start = l.pos) := by
  dsimp only [Lexer.Skip]
  by_cases h : (l.bufCap : Int) / 10 ≥ (l.bufCap : Int) - l.pos
  · rw [if_pos h]
    exact ⟨rfl, rfl, fun _ => ⟨rfl, rfl, rfl⟩, fun hlt => absurd h (by omega)⟩
  · rw [if_neg h]
    exact ⟨rfl, rfl, fun hle => absurd hle (by omega), fun _ => ⟨rfl, rfl, rfl⟩⟩

/-- Witness for C9: at the boundary state the compaction branch of the
specification applies and at a roomy state the in-place branch does. -/
theorem skip_spec_witness :
    (Lexer.Skip skipBoundary).buf = [57] ∧
    (Lexer.Skip eofWithByte).buf = eofWithByte.buf := by
  constructor
  · exact ((skip_spec skipBoundary).2.2.1 (by decide)).1
  · exact ((skip_spec eofWithByte).2.2.2 (by decide)).1

/-- C10: the end-of-input flag is monotone — Next sets it exactly when
it returns the end marker (the position having reached the end of the
buffer after the refill attempt), no operation of the cursor, emitter,
scanners, recovery routine or driver ever clears it — and once it is
set every call to Backup leaves the lexer completely unchanged. -/
theorem eof_flag_monotone (l : Lexer) :
    ((Lexer.Next l).2.eof = true ↔ ((Lexer.Next l).1 = EOF ∨ l.eof = true)) ∧
    (l.eof = true → Lexer.Backup l = l) ∧
    (l.eof = true → (Lexer.Next l).2.eof = true) ∧
    (l.eof = true → (Lexer.Peek l).2.eof = true) ∧
    (l.eof = true → (Lexer.Skip l).eof = true) ∧
    (∀ t, l.eof = true → (Lexer.Emit l t).eof = true) ∧
    (∀ msg, l.eof = true → (Lexer.Errorf l msg).eof = true) ∧
    (∀ valid, l.eof = true → (l.Accept valid).2.eof = true) ∧
    (∀ invalid, l.eof = true → (l.Except invalid).2.eof = true) ∧
    (∀ valid, l.eof = true → (l.AcceptRun valid).2.eof = true) ∧
    (∀ invalid, l.eof = true → (l.ExceptRun invalid).2.eof = true) ∧
    (∀ sf t emit, l.eof = true → (runScan sf l t emit).2.eof = true) ∧
    (∀ e, l.eof = true → (runErrFn e l).eof = true) ∧
    (∀ states i eor, l.eof = true → (passStates states i eor l).eof = true) ∧
    (∀ fuel l2, runLoop fuel l = some l2 → l.eof = true → l2.eof = true) := by
  refine ⟨next_eof_iff l, backup_eof_id l, ?_, ?_, ?_, ?_, ?_, ?_, ?_, ?_, ?_, ?_, ?_, ?_, ?_⟩
  · exact (evolves_next l).2.1
  · exact (evolves_peek l).2.1
  · exact (evolves_skip l (fun _ => True)).2.1
  · exact fun t => (evolves_emit l t).2.1
  · exact fun msg => (evolves_errorf l msg).2.1
  · exact fun valid => (evolves_accept l valid).2.1
  · exact fun invalid => (evolves_except l invalid).2.1
  · exact fun valid => (evolves_acceptRun l valid).2.1
  · exact fun invalid => (evolves_exceptRun l invalid).2.1
  · exact fun sf t emit => (evolves_runScan sf l t emit).2.1
  · exact fun e => (evolves_runErrFn e l).2.1
  · exact fun states i eor => (evolves_passStates states i eor l).2.1
  · exact fun fuel l2 h => (runLoop_evolves fuel l l2 h).2.1

/-- Witness for C10 at the eof-flagged state with a pending byte: the
flag survives a Next that decodes that byte, and Backup is the
identity there. -/
theorem eof_flag_monotone_witness :
    (Lexer.Next eofWithByte).2.eof = true ∧ Lexer.Backup eofWithByte = eofWithByte
      ∧ (Lexer.Next eofWithByte).1 = 97 := by
  refine ⟨(eof_flag_monotone eofWithByte).2.2.1 rfl,
    (eof_flag_monotone eofWithByte).2.1 rfl, ?_⟩
  decide

/-! Characterization of the run primitives: an operational relation
stating that a maximal run of kept runes is consumed, mirroring spec
4.2 (consume while the keep test holds, stop at the end marker or at
the first rune failing it, which is then backed over). -/

inductive ConsumesRun (keep : Int → Bool) : Lexer → Lexer → Prop where
  | stop (l : Lexer)
      (h : (Lexer.Next l).1 = EOF ∨ keep (Lexer.Next l).1 = false) :
      ConsumesRun keep l (Lexer.Next l).2.Backup
  | step (l l2 : Lexer) (h1 : (Lexer.Next l).1 ≠ EOF)
      (h2 : keep (Lexer.Next l).1 = true)
      (h3 : ConsumesRun keep (Lexer.Next l).2 l2) : ConsumesRun keep l l2

theorem lexFuel_succ (l : Lexer) : lexFuel l = lexMeasure l + 1 := rfl

theorem acceptRun_step_eq (l : Lexer) (valid : String)
    (h1 : (Lexer.Next l).1 ≠ EOF)
    (h2 : strContainsRune valid (Lexer.Next l).1 = true) :
    l.AcceptRun valid = (Lexer.Next l).2.AcceptRun valid := by
  unfold Lexer.AcceptRun
  have he : acceptRunLoop (lexFuel l) valid l
      = acceptRunLoop (lexFuel (Lexer.Next l).2) valid (Lexer.Next l).2 := by
    rw [lexFuel_succ, acceptRunLoop_succ, if_neg h1, if_neg (by simp [h2])]
    exact acceptRunLoop_congr valid _ _ _ (next_measure_lt l h1) (by rw [lexFuel_succ]; omega)
  rw [he]

theorem acceptRun_stop_eq (l : Lexer) (valid : String)
    (h : (Lexer.Next l).1 = EOF ∨ strContainsRune valid (Lexer.Next l).1 = false) :
    l.AcceptRun valid
      = (decide ((Lexer.Next l).2.Backup.start < (Lexer.Next l).2.Backup.pos),
         (Lexer.Next l).2.Backup) := by
  unfold Lexer.AcceptRun
  have he : acceptRunLoop (lexFuel l) valid l = (Lexer.Next l).2 := by
    rw [lexFuel_succ, acceptRunLoop_succ]
    rcases h with h | h
    · rw [if_pos h]
    · by_cases h1 : (Lexer.Next l).1 = EOF
      · rw [if_pos h1]
      · rw [if_neg h1, if_pos (by simp [h])]
  rw [he]

theorem exceptRun_step_eq (l : Lexer) (invalid : String)
    (h1 : (Lexer.Next l).1 ≠ EOF)
    (h2 : strContainsRune invalid (Lexer.Next l).1 = false) :
    l.ExceptRun invalid = (Lexer.Next l).2.ExceptRun invalid := by
  unfold Lexer.ExceptRun
  have he : exceptRunLoop (lexFuel l) invalid l
      = exceptRunLoop (lexFuel (Lexer.Next l).2) invalid (Lexer.Next l).2 := by
    rw [lexFuel_succ, exceptRunLoop_succ, if_neg h1, if_neg (by simp [h2])]
    exact exceptRunLoop_congr invalid _ _ _ (next_measure_lt l h1) (by rw [lexFuel_succ]; omega)
  rw [he]

theorem exceptRun_stop_eq (l : Lexer) (invalid : String)
    (h : (Lexer.Next l).1 = EOF ∨ strContainsRune invalid (Lexer.Next l).1 = true) :
    l.ExceptRun invalid
      = (decide ((Lexer.Next l).2.Backup.start < (Lexer.Next l).2.Backup.pos),
         (Lexer.Next l).2.Backup) := by
  unfold Lexer.ExceptRun
  have he : exceptRunLoop (lexFuel l) invalid l = (Lexer.Next l).2 := by
    rw [lexFuel_succ, exceptRunLoop_succ]
    rcases h with h | h
    · rw [if_pos h]
    · by_cases h1 : (Lexer.Next l).1 = EOF
      · rw [if_pos h1]
      · rw [if_neg h1, if_pos h]
  rw [he]

theorem acceptRun_consumes (valid : String) :
    ∀ (n : Nat) (l : Lexer), lexMeasure l ≤ n →
      ConsumesRun (fun r => strContainsRune valid r) l (l.AcceptRun valid).2 := by
  intro n
  induction n with
  | zero =>
    intro l hm
    have heof : (Lexer.Next l).1 = EOF := by
      by_contra h1
      have := next_measure_lt l h1
      omega
    rw [acceptRun_stop_eq l valid (Or.inl heof)]
    exact ConsumesRun.stop l (Or.inl heof)
  | succ n ih =>
    intro l hm
    by_cases h1 : (Lexer.Next l).1 = EOF
    · rw [acceptRun_stop_eq l valid (Or.inl h1)]
      exact ConsumesRun.stop l (Or.inl h1)
    · by_cases h2 : strContainsRune valid (Lexer.Next l).1 = true
      · rw [acceptRun_step_eq l valid h1 h2]
        have := next_measure_lt l h1
        exact ConsumesRun.step l _ h1 h2 (ih (Lexer.Next l).2 (by omega))
      · have h2f : strContainsRune valid (Lexer.Next l).1 = false := by
          simpa using h2
        rw [acceptRun_stop_eq l valid (Or.inr h2f)]
        exact ConsumesRun.stop l (Or.inr h2f)

theorem exceptRun_consumes (invalid : String) :
    ∀ (n : Nat) (l : Lexer), lexMeasure l ≤ n →
      ConsumesRun (fun r => ! strContainsRune invalid r) l (l.ExceptRun invalid).2 := by
  intro n
  induction n with
  | zero =>
    intro l hm
    have heof : (Lexer.Next l).1 = EOF := by
      by_contra h1
      have := next_measure_lt l h1
      omega
    rw [exceptRun_stop_eq l invalid (Or.inl heof)]
    exact ConsumesRun.stop l (Or.inl heof)
  | succ n ih =>
    intro l hm
    by_cases h1 : (Lexer.Next l).1 = EOF
    · rw [exceptRun_stop_eq l invalid (Or.inl h1)]
      exact ConsumesRun.stop l (Or.inl h1)
    · by_cases h2 : strContainsRune invalid (Lexer.Next l).1 = true
      · rw [exceptRun_stop_eq l invalid (Or.inr h2)]
        exact ConsumesRun.stop l (Or.inr (by simp [h2]))
      · have h2f : strContainsRune invalid (Lexer.Next l).1 = false := by
          simpa using h2
        rw [exceptRun_step_eq l invalid h1 h2f]
        have := next_measure_lt l h1
        exact ConsumesRun.step l _ h1 (by simp [h2f]) (ih (Lexer.Next l).2 (by omega))

theorem acceptRun_fst (l : Lexer) (valid : String) :
    (l.AcceptRun valid).1
      = decide ((l.AcceptRun valid).2.start < (l.AcceptRun valid).2.pos) := rfl

theorem exceptRun_fst (l : Lexer) (invalid : String) :
    (l.ExceptRun invalid).1
      = decide ((l.ExceptRun invalid).2.start < (l.ExceptRun invalid).2.pos) := rfl

/-- C3 amended: AcceptRun consumes a maximal run of runes from the
valid set (stopping at the end marker or at the first rune outside the
set) and ExceptRun a maximal run of runes outside the invalid set
(stopping at the end marker or at the first member); each returns true
exactly when the item span from item-start to the position is nonempty
after the call — which coincides with at-least-one-rune-was-consumed
only when the span was empty on entry. -/
theorem run_primitives_spec (s : String) (l : Lexer) :
    ConsumesRun (fun r => strContainsRune s r) l (l.AcceptRun s).2 ∧
    ((l.AcceptRun s).1 = true ↔ (l.AcceptRun s).2.start < (l.AcceptRun s).2.pos) ∧
    ConsumesRun (fun r => ! strContainsRune s r) l (l.ExceptRun s).2 ∧
    ((l.ExceptRun s).1 = true ↔ (l.ExceptRun s).2.start < (l.ExceptRun s).2.pos) := by
  refine ⟨acceptRun_consumes s (lexMeasure l) l (le_refl _), ?_,
    exceptRun_consumes s (lexMeasure l) l (le_refl _), ?_⟩
  · rw [acceptRun_fst]
    exact decide_eq_true_iff
  · rw [exceptRun_fst]
    exact decide_eq_true_iff

/-- State in the middle of an item: one byte already consumed since
item-start (as after a successful Accept), with the byte 0x62 ahead. -/
def midItemState : Lexer :=
  ⟨"", [], ⟨1, [], none⟩, [], false, [97, 98], 2, 1, 1, 0, 1⟩

/-- C3 counterexample: from a state whose item span is already
nonempty, AcceptRun over a set containing none of the upcoming input
consumes nothing — position and absolute position are unchanged — yet
returns true, so the return value is not equivalent to whether that
call consumed at least one character. -/
theorem acceptRun_true_without_consuming :
    (midItemState.AcceptRun "z").1 = true
      ∧ (midItemState.AcceptRun "z").2.pos = midItemState.pos
      ∧ (midItemState.AcceptRun "z").2.rpos = midItemState.rpos := by
  decide

/-! Silent transitions: operations that, over an error-free reader,
send nothing to the consumer.  Every cursor operation and every run
primitive is silent; only Errorf and Emit speak. -/

def Silent (l l2 : Lexer) : Prop :=
  errFree l → l2.out = l.out ∧ errFree l2

theorem Silent.srefl (l : Lexer) : Silent l l :=
  fun h => ⟨rfl, h⟩

theorem Silent.strans {a b c : Lexer} (h1 : Silent a b) (h2 : Silent b c) :
    Silent a c := by
  intro h
  obtain ⟨ho1, hf1⟩ := h1 h
  obtain ⟨ho2, hf2⟩ := h2 hf1
  exact ⟨ho2.trans ho1, hf2⟩

theorem silent_readChunk (l : Lexer) : Silent l l.readChunk := by
  intro h
  refine ⟨?_, (evolves_readChunk l).2.2.2 h⟩
  rcases hc : l.chunks with _ | ⟨c, rest⟩
  · simp [Lexer.readChunk, hc]
  · cases c with
    | bytes bs => simp [Lexer.readChunk, hc]
    | eofSig => simp [Lexer.readChunk, hc]
    | readErr m => exact absurd (by rw [hc]; exact List.mem_cons_self _ _) (h m)

theorem decodeStep_out (l1 : Lexer) : (l1.decodeStep).2.out = l1.out := by
  rcases hd : l1.buf.drop l1.pos.toNat with _ | ⟨b0, t⟩
  · rw [decodeStep_eof_branch l1 hd]
  · rw [decodeStep_decode_branch l1 b0 t hd]

theorem decodeStep_chunks (l1 : Lexer) : (l1.decodeStep).2.chunks = l1.chunks := by
  rcases hd : l1.buf.drop l1.pos.toNat with _ | ⟨b0, t⟩
  · rw [decodeStep_eof_branch l1 hd]
  · rw [decodeStep_decode_branch l1 b0 t hd]

theorem silent_next (l : Lexer) : Silent l (Lexer.Next l).2 := by
  refine Silent.strans (b := if (l.buf.length : Int) - l.pos < UTFMax then l.readChunk else l)
    ?_ ?_
  · split
    · exact silent_readChunk l
    · exact Silent.srefl l
  · intro h
    rw [next_eq_refill]
    constructor
    · exact decodeStep_out _
    · intro m
      rw [decodeStep_chunks]
      exact h m

theorem silent_backup (l : Lexer) : Silent l l.Backup := by
  intro h
  refine ⟨backup_out l, ?_⟩
  have : l.Backup.chunks = l.chunks := by
    dsimp only [Lexer.Backup]; split <;> rfl
  intro m; rw [this]; exact h m

theorem silent_peek (l : Lexer) : Silent l (Lexer.Peek l).2 :=
  Silent.strans (silent_next l) (silent_backup _)

theorem silent_skip (l : Lexer) : Silent l l.Skip := by
  intro h
  have hc : l.Skip.chunks = l.chunks := by
    dsimp only [Lexer.Skip]; split <;> rfl
  have ho : l.Skip.out = l.out := by
    dsimp only [Lexer.Skip]; split <;> rfl
  exact ⟨ho, fun m => hc ▸ h m⟩

theorem silent_accept (l : Lexer) (valid : String) : Silent l (l.Accept valid).2 := by
  dsimp only [Lexer.Accept]
  split
  · exact silent_next l
  · exact Silent.strans (silent_next l) (silent_backup _)

theorem silent_except (l : Lexer) (invalid : String) : Silent l (l.Except invalid).2 := by
  dsimp only [Lexer.Except]
  split
  · exact silent_next l
  · exact Silent.strans (silent_next l) (silent_backup _)

theorem silent_acceptRunLoop (valid : String) :
    ∀ f l, lexMeasure l < f → Silent l (acceptRunLoop f valid l) := by
  intro f
  induction f with
  | zero => intro l hf; exact absurd hf (by omega)
  | succ f ih =>
    intro l hf
    rw [acceptRunLoop_succ]
    by_cases h1 : (Lexer.Next l).1 = EOF
    · rw [if_pos h1]; exact silent_next l
    · rw [if_neg h1]
      by_cases h2 : strContainsRune valid (Lexer.Next l).1
      · rw [if_neg (by simpa using h2)]
        have hm := next_measure_lt l h1
        exact Silent.strans (silent_next l) (ih _ (by omega))
      · rw [if_pos (by simpa using h2)]; exact silent_next l

theorem silent_exceptRunLoop (invalid : String) :
    ∀ f l, lexMeasure l < f → Silent l (exceptRunLoop f invalid l) := by
  intro f
  induction f with
  | zero => intro l hf; exact absurd hf (by omega)
  | succ f ih =>
    intro l hf
    rw [exceptRunLoop_succ]
    by_cases h1 : (Lexer.Next l).1 = EOF
    · rw [if_pos h1]; exact silent_next l
    · rw [if_neg h1]
      by_cases h2 : strContainsRune invalid (Lexer.Next l).1
      · rw [if_pos h2]; exact silent_next l
      · rw [if_neg h2]
        have hm := next_measure_lt l h1
        exact Silent.strans (silent_next l) (ih _ (by omega))

theorem silent_scanWhile (p : Int → Bool) :
    ∀ f l, lexMeasure l < f → Silent l (scanWhile f p l).2 := by
  intro f
  induction f with
  | zero => intro l hf; exact absurd hf (by omega)
  | succ f ih =>
    intro l hf
    rw [scanWhile_succ]
    by_cases h1 : (Lexer.Next l).1 = EOF
    · rw [if_pos h1]; exact silent_next l
    · rw [if_neg h1]
      by_cases h2 : p (Lexer.Next l).1
      · rw [if_pos h2]
        have hm := next_measure_lt l h1
        exact Silent.strans (silent_next l) (ih _ (by omega))
      · rw [if_neg h2]; exact silent_next l

theorem silent_quoteLoop :
    ∀ f l, lexMeasure l < f → Silent l (quoteLoop f l).2 := by
  intro f
  induction f with
  | zero => intro l hf; exact absurd hf (by omega)
  | succ f ih =>
    intro l hf
    rw [quoteLoop_succ]
    by_cases h1 : (Lexer.Next l).1 = 92
    · rw [if_pos h1]
      have hne : (Lexer.Next l).1 ≠ EOF := by rw [h1]; decide
      have hm := next_measure_lt l hne
      have hm2 := next_measure_le (Lexer.Next l).2
      exact Silent.strans (silent_next l) (Silent.strans (silent_next _) (ih _ (by omega)))
    · rw [if_neg h1]
      by_cases h2 : (Lexer.Next l).1 = 10
      · rw [if_pos h2]; exact silent_next l
      · rw [if_neg h2]
        by_cases h3 : (Lexer.Next l).1 = EOF
        · rw [if_pos h3]; exact silent_next l
        · rw [if_neg h3]
          by_cases h4 : (Lexer.Next l).1 = 34
          · rw [if_pos h4]; exact silent_next l
          · rw [if_neg h4]
            have hm := next_measure_lt l h3
            exact Silent.strans (silent_next l) (ih _ (by omega))

theorem silent_acceptRun (l : Lexer) (valid : String) : Silent l (l.AcceptRun valid).2 := by
  unfold Lexer.AcceptRun
  exact Silent.strans (silent_acceptRunLoop valid _ l (by rw [lexFuel_succ]; omega))
    (silent_backup _)

theorem silent_exceptRun (l : Lexer) (invalid : String) : Silent l (l.ExceptRun invalid).2 := by
  unfold Lexer.ExceptRun
  exact Silent.strans (silent_exceptRunLoop invalid _ l (by rw [lexFuel_succ]; omega))
    (silent_backup _)

theorem silent_scanNumber (l : Lexer) : Silent l (l.scanNumber).2 := by
  dsimp only [Lexer.scanNumber]
  have h1 : Silent l (l.Accept "+-").2 := silent_accept l _
  have h2 : Silent l ((l.Accept "+-").2.Accept "0").2 :=
    Silent.strans h1 (silent_accept _ _)
  have h3 : Silent l
      (if ((l.Accept "+-").2.Accept "0").1 = true
        then ((l.Accept "+-").2.Accept "0").2.Accept "xX"
        else (false, ((l.Accept "+-").2.Accept "0").2)).2 := by
    split
    · exact Silent.strans h2 (silent_accept _ _)
    · exact h2
  generalize (if ((l.Accept "+-").2.Accept "0").1 = true ∧
      (if ((l.Accept "+-").2.Accept "0").1 = true
        then ((l.Accept "+-").2.Accept "0").2.Accept "xX"
        else (false, ((l.Accept "+-").2.Accept "0").2)).1 = true
      then "0123456789abcdefABCDEF" else "0123456789") = digits
  generalize hhx : (if ((l.Accept "+-").2.Accept "0").1 = true
      then ((l.Accept "+-").2.Accept "0").2.Accept "xX"
      else (false, ((l.Accept "+-").2.Accept "0").2)) = hx2 at h3 ⊢
  have h4 : Silent l (hx2.2.AcceptRun digits).2 :=
    Silent.strans h3 (silent_acceptRun _ _)
  generalize hr1 : hx2.2.AcceptRun digits = r1 at h4 ⊢
  have h5 : Silent l (r1.2.Accept ".").2 :=
    Silent.strans h4 (silent_accept _ _)
  have h6 : Silent l
      (if (r1.2.Accept ".").1 = true then (r1.2.Accept ".").2.AcceptRun digits
        else (false, (r1.2.Accept ".").2)).2 := by
    split
    · exact Silent.strans h5 (silent_acceptRun _ _)
    · exact h5
  generalize hr2 : (if (r1.2.Accept ".").1 = true then (r1.2.Accept ".").2.AcceptRun digits
      else (false, (r1.2.Accept ".").2)) = r2 at h6 ⊢
  have h7 : Silent l (r2.2.Accept "eE").2 :=
    Silent.strans h6 (silent_accept _ _)
  have h8 : Silent l
      (if (r2.2.Accept "eE").1 = true
        then (((r2.2.Accept "eE").2.Accept "+-").2.AcceptRun "0123456789").2
        else (r2.2.Accept "eE").2) := by
    split
    · exact Silent.strans h7 (Silent.strans (silent_accept _ _) (silent_acceptRun _ _))
    · exact h7
  generalize he3 : (if (r2.2.Accept "eE").1 = true
      then (((r2.2.Accept "eE").2.Accept "+-").2.AcceptRun "0123456789").2
      else (r2.2.Accept "eE").2) = e3 at h8 ⊢
  have h9 : Silent l (e3.Accept "i").2.Peek.2 :=
    Silent.strans h8 (Silent.strans (silent_accept _ _) (silent_peek _))
  split
  · exact Silent.strans h9 (silent_next _)
  · exact h9

/-- Errorf followed by nothing: the exact one-item delta. -/
theorem errorf_out (l : Lexer) (msg : String) :
    (l.Errorf msg).out = l.out ++ [⟨ItemError, l.rpos, ItemVal.str msg⟩] := rfl

theorem errorf_rpos (l : Lexer) (msg : String) : (l.Errorf msg).rpos = l.rpos := rfl

/-- Whether a scanner reports failures with an error token: the four
factory scanners do exactly when built with needed = true, the fixed
scanners always. -/
def sfNeeds : ScanFn → Bool
  | ScanFn.accept _ n => n
  | ScanFn.acceptRun _ n => n
  | ScanFn.except _ n => n
  | ScanFn.exceptRun _ n => n
  | _ => true

theorem errorf_width (l : Lexer) (msg : String) : (l.Errorf msg).width = l.width := rfl

theorem backup_width (l : Lexer) : l.Backup.width = l.width := by
  dsimp only [Lexer.Backup]; split <;> rfl

/-- Rpos of Errorf-then-Backup relative to the emitted position. -/
theorem errorf_backup_rpos (x : Lexer) (msg : String) :
    x.rpos = ((x.Errorf msg).Backup).rpos
      ∨ x.rpos = ((x.Errorf msg).Backup).rpos + ((x.Errorf msg).Backup).width := by
  by_cases he : (x.Errorf msg).eof = true
  · rw [backup_eof_id _ he]
    exact Or.inl (by rw [errorf_rpos])
  · rw [backup_not_eof _ (by simpa using he)]
    right
    dsimp only [Lexer.Errorf]
    omega

theorem factory_tail_fail (l0 mid : Lexer) (t : Int) (emit : Bool) (needed b : Bool)
    (msg : String) (hsil : Silent l0 mid) (hfree : errFree l0)
    (hfail : (if b then (if emit then (true, mid.Emit t) else (true, mid.Skip))
       else if needed then (false, mid.Peek.2.Errorf (msg ++ quoteRune mid.Peek.1))
       else (false, mid)).1 = false) :
    (needed = true →
      ∃ e, (if b then (if emit then (true, mid.Emit t) else (true, mid.Skip))
        else if needed then (false, mid.Peek.2.Errorf (msg ++ quoteRune mid.Peek.1))
        else (false, mid)).2.out = l0.out ++ [e] ∧ e.type = ItemError
        ∧ e.pos = (if b then (if emit then (true, mid.Emit t) else (true, mid.Skip))
            else if needed then (false, mid.Peek.2.Errorf (msg ++ quoteRune mid.Peek.1))
            else (false, mid)).2.rpos) ∧
    (needed = false →
      (if b then (if emit then (true, mid.Emit t) else (true, mid.Skip))
        else if needed then (false, mid.Peek.2.Errorf (msg ++ quoteRune mid.Peek.1))
        else (false, mid)).2.out = l0.out) := by
  cases b with
  | true => cases emit <;> simp at hfail
  | false =>
    cases needed with
    | true =>
      refine ⟨fun _ => ?_, fun hn => by simp at hn⟩
      obtain ⟨ho, _⟩ := (Silent.strans hsil (silent_peek mid)) hfree
      refine ⟨⟨ItemError, mid.Peek.2.rpos, ItemVal.str (msg ++ quoteRune mid.Peek.1)⟩,
        ?_, rfl, ?_⟩
      · show (mid.Peek.2.Errorf (msg ++ quoteRune mid.Peek.1)).out = _
        rw [errorf_out, ho]
      · show _ = (mid.Peek.2.Errorf (msg ++ quoteRune mid.Peek.1)).rpos
        rw [errorf_rpos]
    | false =>
      refine ⟨fun hn => by simp at hn, fun _ => ?_⟩
      show mid.out = l0.out
      exact (hsil hfree).1

theorem classTail_fail (l0 mid : Lexer) (t : Int) (emit : Bool) (r : Int) (what : String)
    (hsil : Silent l0 mid) (hfree : errFree l0)
    (hfail : (classTail mid t emit r what).1 = false) :
    ∃ e, (classTail mid t emit r what).2.out = l0.out ++ [e] ∧ e.type = ItemError
      ∧ e.pos = (classTail mid t emit r what).2.rpos := by
  dsimp only [classTail] at hfail ⊢
  by_cases hp : mid.Backup.pos > mid.Backup.start
  · rw [if_pos hp] at hfail
    cases emit <;> simp at hfail
  · rw [if_neg hp] at hfail ⊢
    obtain ⟨ho, _⟩ := (Silent.strans hsil (silent_backup mid)) hfree
    exact ⟨⟨ItemError, mid.Backup.rpos, ItemVal.str ("expected " ++ what ++ ", got "
      ++ quoteRune r)⟩, by rw [errorf_out, ho], rfl, by rw [errorf_rpos]⟩

theorem quote_fail (l : Lexer) (t : Int) (emit : Bool) (hfree : errFree l)
    (hfail : (Quote l t emit).1 = false) :
    ∃ e, (Quote l t emit).2.out = l.out ++ [e] ∧ e.type = ItemError
      ∧ (e.pos = (Quote l t emit).2.rpos
         ∨ e.pos = (Quote l t emit).2.rpos + (Quote l t emit).2.width) := by
  dsimp only [Quote] at hfail ⊢
  by_cases h34 : (Lexer.Next l).1 ≠ 34
  · rw [if_pos h34] at hfail ⊢
    obtain ⟨ho, _⟩ := silent_next l hfree
    refine ⟨⟨ItemError, (Lexer.Next l).2.rpos,
      ItemVal.str ("expected quote, got " ++ quoteRune (Lexer.Next l).1)⟩, ?_, rfl, ?_⟩
    · show ((Lexer.Next l).2.Errorf _).Backup.out = _
      rw [backup_out, errorf_out, ho]
    · exact errorf_backup_rpos (Lexer.Next l).2 _
  · rw [if_neg h34] at hfail ⊢
    have hql : Silent l (quoteLoop (lexFuel (Lexer.Next l).2) (Lexer.Next l).2).2 :=
      Silent.strans (silent_next l) (silent_quoteLoop _ _ (by rw [lexFuel_succ]; omega))
    obtain ⟨ho, _⟩ := hql hfree
    cases hexit : (quoteLoop (lexFuel (Lexer.Next l).2) (Lexer.Next l).2).1 with
    | newline =>
      simp only [hexit] at hfail ⊢
      refine ⟨⟨ItemError, (quoteLoop (lexFuel (Lexer.Next l).2) (Lexer.Next l).2).2.rpos,
        ItemVal.str "unterminated quote"⟩, ?_, rfl, ?_⟩
      · show ((quoteLoop (lexFuel (Lexer.Next l).2) (Lexer.Next l).2).2.Errorf
          "unterminated quote").Backup.out = _
        rw [backup_out, errorf_out, ho]
      · exact errorf_backup_rpos _ _
    | eofHit =>
      simp only [hexit] at hfail ⊢
      refine ⟨⟨ItemError, (quoteLoop (lexFuel (Lexer.Next l).2) (Lexer.Next l).2).2.rpos,
        ItemVal.str "unterminated quote"⟩, ?_, rfl, ?_⟩
      · show ((quoteLoop (lexFuel (Lexer.Next l).2) (Lexer.Next l).2).2.Errorf
          "unterminated quote").out = _
        rw [errorf_out, ho]
      · exact Or.inl (by rw [errorf_rpos])
    | closeQuote =>
      simp only [hexit] at hfail
      cases emit <;> simp at hfail

theorem number_fail (l : Lexer) (t : Int) (emit : Bool) (hfree : errFree l)
    (hfail : (Number l t emit).1 = false) :
    ∃ e, (Number l t emit).2.out = l.out ++ [e] ∧ e.type = ItemError
      ∧ e.pos = (Number l t emit).2.rpos := by
  dsimp only [Number] at hfail ⊢
  by_cases hs1 : ¬ (l.scanNumber).1 = true
  · rw [if_pos hs1] at hfail ⊢
    obtain ⟨ho, _⟩ := silent_scanNumber l hfree
    exact ⟨⟨ItemError, (l.scanNumber).2.rpos, ItemVal.str "bad number syntax"⟩,
      by rw [errorf_out, ho], rfl, by rw [errorf_rpos]⟩
  · rw [if_neg hs1] at hfail ⊢
    have hpk : Silent l (l.scanNumber).2.Peek.2 :=
      Silent.strans (silent_scanNumber l) (silent_peek _)
    by_cases hsn : (l.scanNumber).2.Peek.1 = 43 ∨ (l.scanNumber).2.Peek.1 = 45
    · rw [if_pos hsn] at hfail ⊢
      have hs2 : Silent l ((l.scanNumber).2.Peek.2.scanNumber).2 :=
        Silent.strans hpk (silent_scanNumber _)
      obtain ⟨ho2, _⟩ := hs2 hfree
      by_cases hbad : ¬ ((l.scanNumber).2.Peek.2.scanNumber).1 = true
          ∨ ¬ (((l.scanNumber).2.Peek.2.scanNumber).2.buf.getD
              ((((l.scanNumber).2.Peek.2.scanNumber).2.pos - 1).toNat) 0 = 105)
      · rw [if_pos hbad] at hfail ⊢
        exact ⟨⟨ItemError, ((l.scanNumber).2.Peek.2.scanNumber).2.rpos,
          ItemVal.str "bad number syntax"⟩, by rw [errorf_out, ho2], rfl,
          by rw [errorf_rpos]⟩
      · rw [if_neg hbad] at hfail
        cases emit <;> simp at hfail
    · rw [if_neg hsn] at hfail
      cases emit <;> simp at hfail

set_option maxRecDepth 8000 in
/-- C2 amended: over an input source whose reads do not fail, a field
step whose scanning routine fails emits exactly one error-kind token
when the routine reports errors — always for Quote, Digits, Letters,
Spaces and Number, and exactly when needed = true for the factory-built
Accept, AcceptRun, Except and ExceptRun — and emits no token at all
when a factory routine was constructed with needed = false.  The error
token carries the absolute byte position current at its emission: the
final absolute position, except after the failure branches of Quote
that back over the offending rune, where it is that position plus the
backed-over width. -/
theorem scan_failure_error_tokens (sf : ScanFn) (l : Lexer) (t : Int) (emit : Bool)
    (hfree : errFree l) (hfail : (runScan sf l t emit).1 = false) :
    (sfNeeds sf = true →
      ∃ e, (runScan sf l t emit).2.out = l.out ++ [e] ∧ e.type = ItemError
        ∧ (e.pos = (runScan sf l t emit).2.rpos
           ∨ e.pos = (runScan sf l t emit).2.rpos + (runScan sf l t emit).2.width)) ∧
    (sfNeeds sf = false → (runScan sf l t emit).2.out = l.out) := by
  cases sf with
  | accept valid needed =>
    have h := factory_tail_fail l (l.Accept valid).2 t emit needed (l.Accept valid).1
      ("expected character from the set " ++ quoteStr valid ++ ", got ")
      (silent_accept l valid) hfree hfail
    exact ⟨fun hn => ((h.1 hn).imp (fun e he => ⟨he.1, he.2.1, Or.inl he.2.2⟩)), h.2⟩
  | acceptRun valid needed =>
    have h := factory_tail_fail l (l.AcceptRun valid).2 t emit needed (l.AcceptRun valid).1
      ("expected a run of characters from the set " ++ quoteStr valid ++ ", got ")
      (silent_acceptRun l valid) hfree hfail
    exact ⟨fun hn => ((h.1 hn).imp (fun e he => ⟨he.1, he.2.1, Or.inl he.2.2⟩)), h.2⟩
  | except invalid needed =>
    have h := factory_tail_fail l (l.Except invalid).2 t emit needed (l.Except invalid).1
      ("expected a character outside the set " ++ quoteStr invalid ++ ", got ")
      (silent_except l invalid) hfree hfail
    exact ⟨fun hn => ((h.1 hn).imp (fun e he => ⟨he.1, he.2.1, Or.inl he.2.2⟩)), h.2⟩
  | exceptRun invalid needed =>
    have h := factory_tail_fail l (l.ExceptRun invalid).2 t emit needed (l.ExceptRun invalid).1
      ("expected a character outside the set " ++ quoteStr invalid ++ ", got ")
      (silent_exceptRun l invalid) hfree hfail
    exact ⟨fun hn => ((h.1 hn).imp (fun e he => ⟨he.1, he.2.1, Or.inl he.2.2⟩)), h.2⟩
  | quote =>
    exact ⟨fun _ => quote_fail l t emit hfree hfail, fun hn => by simp [sfNeeds] at hn⟩
  | digits =>
    refine ⟨fun _ => ?_, fun hn => by simp [sfNeeds] at hn⟩
    have h := classTail_fail l (scanWhile (lexFuel l) unicodeIsDigit l).2 t emit
      (scanWhile (lexFuel l) unicodeIsDigit l).1 "[0-9]"
      (silent_scanWhile unicodeIsDigit _ l (by rw [lexFuel_succ]; omega)) hfree hfail
    exact h.imp (fun e he => ⟨he.1, he.2.1, Or.inl he.2.2⟩)
  | letters =>
    refine ⟨fun _ => ?_, fun hn => by simp [sfNeeds] at hn⟩
    have h := classTail_fail l (scanWhile (lexFuel l) unicodeIsLetter l).2 t emit
      (scanWhile (lexFuel l) unicodeIsLetter l).1 "letter"
      (silent_scanWhile unicodeIsLetter _ l (by rw [lexFuel_succ]; omega)) hfree hfail
    exact h.imp (fun e he => ⟨he.1, he.2.1, Or.inl he.2.2⟩)
  | spaces =>
    refine ⟨fun _ => ?_, fun hn => by simp [sfNeeds] at hn⟩
    have h := classTail_fail l (scanWhile (lexFuel l) unicodeIsSpace l).2 t emit
      (scanWhile (lexFuel l) unicodeIsSpace l).1 "whitespace"
      (silent_scanWhile unicodeIsSpace _ l (by rw [lexFuel_succ]; omega)) hfree hfail
    exact h.imp (fun e he => ⟨he.1, he.2.1, Or.inl he.2.2⟩)
  | number =>
    refine ⟨fun _ => ?_, fun hn => by simp [sfNeeds] at hn⟩
    exact (number_fail l t emit hfree hfail).imp (fun e he => ⟨he.1, he.2.1, Or.inl he.2.2⟩)

/-- Fresh lexer over a reader delivering the single byte 0x62, with a
well-formed record shape. -/
def bAhead : Lexer :=
  ⟨"w", [ReadResult.bytes [98]], okRecord, [], false, [], 0, 0, 0, 0, 0⟩

/-- Witness for C2: a required Accept of 0x61 failing on the byte 0x62
emits exactly one error token. -/
theorem scan_failure_error_tokens_witness :
    ∃ e, (runScan (ScanFn.accept "a" true) bAhead 4 true).2.out = bAhead.out ++ [e]
      ∧ e.type = ItemError
      ∧ (e.pos = (runScan (ScanFn.accept "a" true) bAhead 4 true).2.rpos
         ∨ e.pos = (runScan (ScanFn.accept "a" true) bAhead 4 true).2.rpos
             + (runScan (ScanFn.accept "a" true) bAhead 4 true).2.width) := by
  refine (scan_failure_error_tokens (ScanFn.accept "a" true) bAhead 4 true ?_ (by decide)).1 rfl
  intro m hm
  simp [bAhead] at hm

/-- C2 counterexample: the Accept factory built with needed = false
fails on the byte 0x62 without emitting any token at all, so a failing
scan does not always produce exactly one error-kind token — it depends
on how the routine was constructed. -/
theorem accept_unneeded_fails_without_error :
    (runScan (ScanFn.accept "a" false) bAhead 4 true).1 = false
      ∧ (runScan (ScanFn.accept "a" false) bAhead 4 true).2.out = [] := by
  decide

/-- Reader over the bytes of the string made of 0x62, five 0x0A and
0x61, delivering one byte per read as strings.Reader does against the
one-byte read buffer of a Buflen 1 record. -/
def skipPastChunks : List ReadResult :=
  [ReadResult.bytes [98], ReadResult.bytes [10], ReadResult.bytes [10], ReadResult.bytes [10],
   ReadResult.bytes [10], ReadResult.bytes [10], ReadResult.bytes [97]]

/-- C8: a single-field record requiring a run of 0x61 with the standard
separator recovery, fed the input whose bytes are 0x62, five 0x0A,
0x61, produces in order exactly one error token at position 0 (the
position of the offending first byte), then the success token with
value the single byte 0x61 at position 6, then the end-of-record and
end-of-input markers: the recovery routine consumed the non-separator
prefix and the separator run before field 0 was retried. -/
theorem recovery_resynchronizes :
    ∃ msg, lexAll 3 "TestLexerSkipPast" skipPastChunks okRecord
      = some [⟨ItemError, 0, ItemVal.str msg⟩, ⟨4, 6, ItemVal.raw [97]⟩,
              ⟨ItemEOR, 7, ItemVal.raw []⟩, ⟨ItemEOF, 7, ItemVal.raw []⟩] :=
  ⟨"expected a run of characters from the set \x22a\x22, got b", by decide⟩

/-! Cursor invariant: item-start between zero and the position, the
position within the buffer, the buffer within its capacity. -/

def Inv (l : Lexer) : Prop :=
  0 ≤ l.start ∧ l.start ≤ l.pos ∧ l.pos ≤ (l.buf.length : Int) ∧ l.buf.length ≤ l.bufCap

/-- Strengthened invariant holding right after an advance: one Backup
is still honorable (the last width lies inside the current span). -/
def InvB (l : Lexer) : Prop :=
  Inv l ∧ (l.eof = true ∨ (0 ≤ l.width ∧ l.start + l.width ≤ l.pos))

theorem growCap_ge (c n : Nat) : n ≤ growCap c n := by
  unfold growCap
  split <;> omega

theorem inv_readChunk (l : Lexer) (h : Inv l) : Inv l.readChunk := by
  obtain ⟨h1, h2, h3, h4⟩ := h
  rcases hc : l.chunks with _ | ⟨c, rest⟩
  · simpa [Lexer.readChunk, hc] using ⟨h1, h2, h3, h4⟩
  · cases c with
    | bytes bs =>
      refine ⟨?_, ?_, ?_, ?_⟩ <;> simp only [Lexer.readChunk, hc, List.length_append]
      · exact h1
      · exact h2
      · omega
      · exact growCap_ge _ _
    | eofSig => simpa [Lexer.readChunk, hc] using ⟨h1, h2, h3, h4⟩
    | readErr m => simpa [Lexer.readChunk, hc] using ⟨h1, h2, h3, h4⟩

theorem inv_decodeStep (l1 : Lexer) (h : Inv l1) :
    Inv (l1.decodeStep).2 ∧ InvB (l1.decodeStep).2 := by
  obtain ⟨h1, h2, h3, h4⟩ := h
  rcases hd : l1.buf.drop l1.pos.toNat with _ | ⟨b0, t⟩
  · rw [decodeStep_eof_branch l1 hd]
    exact ⟨⟨h1, h2, h3, h4⟩, ⟨h1, h2, h3, h4⟩, Or.inl rfl⟩
  · rw [decodeStep_decode_branch l1 b0 t hd]
    have hw1 : 1 ≤ (decodeRune (b0 :: t)).2 := decodeRune_width_pos b0 t
    have hw2 : (decodeRune (b0 :: t)).2 ≤ (b0 :: t).length := decodeRune_width_le b0 t
    have hlen : l1.buf.length - l1.pos.toNat = t.length + 1 := by
      have := congrArg List.length hd
      simpa using this
    refine ⟨⟨h1, by dsimp only; omega, by dsimp only; simp only [List.length_cons] at hw2; omega,
      h4⟩, ⟨h1, by dsimp only; omega, by dsimp only; simp only [List.length_cons] at hw2; omega,
      h4⟩, Or.inr ⟨by dsimp only; omega, by dsimp only; omega⟩⟩

theorem inv_next (l : Lexer) (h : Inv l) :
    Inv (Lexer.Next l).2 ∧ InvB (Lexer.Next l).2 := by
  rw [next_eq_refill]
  refine inv_decodeStep _ ?_
  split
  · exact inv_readChunk l h
  · exact h

theorem inv_backup (l : Lexer) (h : InvB l) : Inv (Lexer.Backup l) := by
  obtain ⟨⟨h1, h2, h3, h4⟩, hb⟩ := h
  rcases hb with hb | ⟨hb1, hb2⟩
  · rw [backup_eof_id l hb]
    exact ⟨h1, h2, h3, h4⟩
  · by_cases he : l.eof = true
    · rw [backup_eof_id l he]
      exact ⟨h1, h2, h3, h4⟩
    · rw [backup_not_eof l (by simpa using he)]
      exact ⟨h1, by dsimp only; omega, by dsimp only; omega, h4⟩

theorem invB_errorf (l : Lexer) (msg : String) (h : InvB l) : InvB (l.Errorf msg) := h

theorem inv_errorf (l : Lexer) (msg : String) (h : Inv l) : Inv (l.Errorf msg) := h

theorem inv_skip (l : Lexer) (h : Inv l) : Inv (Lexer.Skip l) := by
  obtain ⟨h1, h2, h3, h4⟩ := h
  dsimp only [Lexer.Skip]
  split
  · refine ⟨le_refl _, le_refl _, ?_, ?_⟩ <;> simp only [List.length_drop]
    · omega
    · omega
  · exact ⟨by show (0 : Int) ≤ l.pos; omega, le_refl _, h3, h4⟩

theorem inv_emit (l : Lexer) (t : Int) (h : Inv l) : Inv (Lexer.Emit l t) :=
  inv_skip _ h

theorem inv_accept (l : Lexer) (valid : String) (h : Inv l) : Inv (l.Accept valid).2 := by
  dsimp only [Lexer.Accept]
  split
  · exact (inv_next l h).1
  · exact inv_backup _ (inv_next l h).2

theorem inv_except (l : Lexer) (invalid : String) (h : Inv l) : Inv (l.Except invalid).2 := by
  dsimp only [Lexer.Except]
  split
  · exact (inv_next l h).1
  · exact inv_backup _ (inv_next l h).2

theorem inv_acceptRunLoop (valid : String) :
    ∀ f l, lexMeasure l < f → Inv l → InvB (acceptRunLoop f valid l) := by
  intro f
  induction f with
  | zero => intro l hf; exact absurd hf (by omega)
  | succ f ih =>
    intro l hf h
    rw [acceptRunLoop_succ]
    by_cases h1 : (Lexer.Next l).1 = EOF
    · rw [if_pos h1]; exact (inv_next l h).2
    · rw [if_neg h1]
      by_cases h2 : strContainsRune valid (Lexer.Next l).1
      · rw [if_neg (by simpa using h2)]
        have hm := next_measure_lt l h1
        exact ih _ (by omega) (inv_next l h).1
      · rw [if_pos (by simpa using h2)]; exact (inv_next l h).2

theorem inv_exceptRunLoop (invalid : String) :
    ∀ f l, lexMeasure l < f → Inv l → InvB (exceptRunLoop f invalid l) := by
  intro f
  induction f with
  | zero => intro l hf; exact absurd hf (by omega)
  | succ f ih =>
    intro l hf h
    rw [exceptRunLoop_succ]
    by_cases h1 : (Lexer.Next l).1 = EOF
    · rw [if_pos h1]; exact (inv_next l h).2
    · rw [if_neg h1]
      by_cases h2 : strContainsRune invalid (Lexer.Next l).1
      · rw [if_pos h2]; exact (inv_next l h).2
      · rw [if_neg h2]
        have hm := next_measure_lt l h1
        exact ih _ (by omega) (inv_next l h).1

theorem inv_acceptRun (l : Lexer) (valid : String) (h : Inv l) : Inv (l.AcceptRun valid).2 := by
  unfold Lexer.AcceptRun
  exact inv_backup _ (inv_acceptRunLoop valid _ l (by rw [lexFuel_succ]; omega) h)

theorem inv_exceptRun (l : Lexer) (invalid : String) (h : Inv l) :
    Inv (l.ExceptRun invalid).2 := by
  unfold Lexer.ExceptRun
  exact inv_backup _ (inv_exceptRunLoop invalid _ l (by rw [lexFuel_succ]; omega) h)

theorem inv_scanWhile (p : Int → Bool) :
    ∀ f l, lexMeasure l < f → Inv l → InvB (scanWhile f p l).2 := by
  intro f
  induction f with
  | zero => intro l hf; exact absurd hf (by omega)
  | succ f ih =>
    intro l hf h
    rw [scanWhile_succ]
    by_cases h1 : (Lexer.Next l).1 = EOF
    · rw [if_pos h1]; exact (inv_next l h).2
    · rw [if_neg h1]
      by_cases h2 : p (Lexer.Next l).1
      · rw [if_pos h2]
        have hm := next_measure_lt l h1
        exact ih _ (by omega) (inv_next l h).1
      · rw [if_neg h2]; exact (inv_next l h).2

theorem inv_classTail (mid : Lexer) (t : Int) (emit : Bool) (r : Int) (what : String)
    (h : InvB mid) : Inv (classTail mid t emit r what).2 := by
  dsimp only [classTail]
  have hb := inv_backup mid h
  split
  · split
    · exact inv_emit _ t hb
    · exact inv_skip _ hb
  · exact inv_errorf _ _ hb

theorem inv_quoteLoop :
    ∀ f l, lexMeasure l < f → Inv l → InvB (quoteLoop f l).2 := by
  intro f
  induction f with
  | zero => intro l hf; exact absurd hf (by omega)
  | succ f ih =>
    intro l hf h
    rw [quoteLoop_succ]
    by_cases h1 : (Lexer.Next l).1 = 92
    · rw [if_pos h1]
      have hne : (Lexer.Next l).1 ≠ EOF := by rw [h1]; decide
      have hm := next_measure_lt l hne
      have hm2 := next_measure_le (Lexer.Next l).2
      exact ih _ (by omega) (inv_next _ (inv_next l h).1).1
    · rw [if_neg h1]
      by_cases h2 : (Lexer.Next l).1 = 10
      · rw [if_pos h2]; exact (inv_next l h).2
      · rw [if_neg h2]
        by_cases h3 : (Lexer.Next l).1 = EOF
        · rw [if_pos h3]; exact (inv_next l h).2
        · rw [if_neg h3]
          by_cases h4 : (Lexer.Next l).1 = 34
          · rw [if_pos h4]; exact (inv_next l h).2
          · rw [if_neg h4]
            have hm := next_measure_lt l h3
            exact ih _ (by omega) (inv_next l h).1

theorem inv_quote (l : Lexer) (t : Int) (emit : Bool) (h : Inv l) : Inv (Quote l t emit).2 := by
  dsimp only [Quote]
  split
  · exact inv_backup _ (invB_errorf _ _ (inv_next l h).2)
  · have hq := inv_quoteLoop (lexFuel (Lexer.Next l).2) (Lexer.Next l).2
      (by rw [lexFuel_succ]; omega) (inv_next l h).1
    split
    · exact inv_backup _ (invB_errorf _ _ hq)
    · exact inv_errorf _ _ hq.1
    · split
      · exact inv_emit _ t hq.1
      · exact inv_skip _ hq.1

theorem inv_peek (l : Lexer) (h : Inv l) : Inv (Lexer.Peek l).2 :=
  inv_backup _ (inv_next l h).2

theorem inv_scanNumber (l : Lexer) (h : Inv l) : Inv (l.scanNumber).2 := by
  dsimp only [Lexer.scanNumber]
  have h1 : Inv (l.Accept "+-").2 := inv_accept l _ h
  have h2 : Inv ((l.Accept "+-").2.Accept "0").2 := inv_accept _ _ h1
  have h3 : Inv
      (if ((l.Accept "+-").2.Accept "0").1 = true
        then ((l.Accept "+-").2.Accept "0").2.Accept "xX"
        else (false, ((l.Accept "+-").2.Accept "0").2)).2 := by
    split
    · exact inv_accept _ _ h2
    · exact h2
  generalize (if ((l.Accept "+-").2.Accept "0").1 = true ∧
      (if ((l.Accept "+-").2.Accept "0").1 = true
        then ((l.Accept "+-").2.Accept "0").2.Accept "xX"
        else (false, ((l.Accept "+-").2.Accept "0").2)).1 = true
      then "0123456789abcdefABCDEF" else "0123456789") = digits
  generalize hhx : (if ((l.Accept "+-").2.Accept "0").1 = true
      then ((l.Accept "+-").2.Accept "0").2.Accept "xX"
      else (false, ((l.Accept "+-").2.Accept "0").2)) = hx2 at h3 ⊢
  have h4 : Inv (hx2.2.AcceptRun digits).2 := inv_acceptRun _ _ h3
  generalize hr1 : hx2.2.AcceptRun digits = r1 at h4 ⊢
  have h5 : Inv (r1.2.Accept ".").2 := inv_accept _ _ h4
  have h6 : Inv
      (if (r1.2.Accept ".").1 = true then (r1.2.Accept ".").2.AcceptRun digits
        else (false, (r1.2.Accept ".").2)).2 := by
    split
    · exact inv_acceptRun _ _ h5
    · exact h5
  generalize hr2 : (if (r1.2.Accept ".").1 = true then (r1.2.Accept ".").2.AcceptRun digits
      else (false, (r1.2.Accept ".").2)) = r2 at h6 ⊢
  have h7 : Inv (r2.2.Accept "eE").2 := inv_accept _ _ h6
  have h8 : Inv
      (if (r2.2.Accept "eE").1 = true
        then (((r2.2.Accept "eE").2.Accept "+-").2.AcceptRun "0123456789").2
        else (r2.2.Accept "eE").2) := by
    split
    · exact inv_acceptRun _ _ (inv_accept _ _ h7)
    · exact h7
  generalize he3 : (if (r2.2.Accept "eE").1 = true
      then (((r2.2.Accept "eE").2.Accept "+-").2.AcceptRun "0123456789").2
      else (r2.2.Accept "eE").2) = e3 at h8 ⊢
  have h9 : Inv (e3.Accept "i").2.Peek.2 := inv_peek _ (inv_accept _ _ h8)
  split
  · exact (inv_next _ h9).1
  · exact h9

theorem inv_number (l : Lexer) (t : Int) (emit : Bool) (h : Inv l) :
    Inv (Number l t emit).2 := by
  dsimp only [Number]
  generalize hs1 : l.scanNumber = s1
  have h1 : Inv s1.2 := by rw [← hs1]; exact inv_scanNumber l h
  split
  · exact inv_errorf _ _ h1
  · generalize hpk : s1.2.Peek = pk
    have h2 : Inv pk.2 := by rw [← hpk]; exact inv_peek _ h1
    split
    · generalize hs2 : pk.2.scanNumber = s2
      have h3 : Inv s2.2 := by rw [← hs2]; exact inv_scanNumber _ h2
      split
      · exact inv_errorf _ _ h3
      · split
        · exact inv_emit _ t h3
        · exact inv_skip _ h3
    · split
      · exact inv_emit _ t h2
      · exact inv_skip _ h2

theorem inv_runScan (sf : ScanFn) (l : Lexer) (t : Int) (emit : Bool) (h : Inv l) :
    Inv (runScan sf l t emit).2 := by
  cases sf with
  | accept valid needed =>
    dsimp only [runScan]
    have hb := inv_accept l valid h
    split
    · split
      · exact inv_emit _ t hb
      · exact inv_skip _ hb
    · split
      · exact inv_errorf _ _ (inv_peek _ hb)
      · exact hb
  | acceptRun valid needed =>
    dsimp only [runScan]
    have hb := inv_acceptRun l valid h
    split
    · split
      · exact inv_emit _ t hb
      · exact inv_skip _ hb
    · split
      · exact inv_errorf _ _ (inv_peek _ hb)
      · exact hb
  | except invalid needed =>
    dsimp only [runScan]
    have hb := inv_except l invalid h
    split
    · split
      · exact inv_emit _ t hb
      · exact inv_skip _ hb
    · split
      · exact inv_errorf _ _ (inv_peek _ hb)
      · exact hb
  | exceptRun invalid needed =>
    dsimp only [runScan]
    have hb := inv_exceptRun l invalid h
    split
    · split
      · exact inv_emit _ t hb
      · exact inv_skip _ hb
    · split
      · exact inv_errorf _ _ (inv_peek _ hb)
      · exact hb
  | quote => exact inv_quote l t emit h
  | digits => exact inv_classTail _ t emit _ _ (inv_scanWhile unicodeIsDigit _ l
      (by rw [lexFuel_succ]; omega) h)
  | letters => exact inv_classTail _ t emit _ _ (inv_scanWhile unicodeIsLetter _ l
      (by rw [lexFuel_succ]; omega) h)
  | spaces => exact inv_classTail _ t emit _ _ (inv_scanWhile unicodeIsSpace _ l
      (by rw [lexFuel_succ]; omega) h)
  | number => exact inv_number l t emit h

theorem inv_skipPast (l : Lexer) (s : String) (h : Inv l) : Inv (skipPast s l) := by
  have h2 : ∀ l2 : Lexer, Inv l2 →
      Inv (if (l2.AcceptRun s).1 then (l2.AcceptRun s).2.Skip else (l2.AcceptRun s).2) := by
    intro l2 hl2
    split
    · exact inv_skip _ (inv_acceptRun _ s hl2)
    · exact inv_acceptRun _ s hl2
  have h1 : Inv (if (l.ExceptRun s).1 then (l.ExceptRun s).2.Skip else (l.ExceptRun s).2) := by
    split
    · exact inv_skip _ (inv_exceptRun _ s h)
    · exact inv_exceptRun _ s h
  exact h2 _ h1

theorem inv_runErrFn (e : ErrFn) (l : Lexer) (h : Inv l) : Inv (runErrFn e l) := by
  cases e with
  | skipPast s => exact inv_skipPast l s h

theorem inv_passStates :
    ∀ (states : List Binding) (i eor : Nat) (l : Lexer), Inv l →
      Inv (passStates states i eor l) := by
  intro states
  induction states with
  | nil => intro i eor l h; exact h
  | cons b rest ih =>
    intro i eor l h
    dsimp only [passStates]
    have hs := inv_runScan b.stateFn l b.itemType b.emit h
    split
    · refine ih (i + 1) eor _ ?_
      split
      · exact inv_emit _ ItemEOR hs
      · exact hs
    · split
      · exact inv_runErrFn _ _ hs
      · exact hs

theorem inv_runLoop :
    ∀ (fuel : Nat) (l l2 : Lexer), runLoop fuel l = some l2 → Inv l → Inv l2 := by
  intro fuel
  induction fuel with
  | zero => intro l l2 h; exact absurd h (by simp [runLoop])
  | succ fuel ih =>
    intro l l2 h hi
    dsimp only [runLoop] at h
    have hp : Inv (passStates l.record.states 0 (l.record.states.length - 1) l).Peek.2 :=
      inv_peek _ (inv_passStates _ _ _ l hi)
    split at h
    · rw [← Option.some_inj.mp h]
      exact inv_emit _ ItemEOF hp
    · exact ih _ _ h hp

/-- C6 amended: the inequality item-start ≤ position ≤ length(buffer)
(together with the nonnegativity of item-start and the capacity bound)
is preserved by every operation of the cursor, emitter, scan routines,
recovery routine and driver, holds in the freshly constructed lexer,
and is preserved by Backup provided the backtrack still compensates the
last advance — its width lies inside the current span, which holds
right after every Next but can be destroyed by an intervening Emit or
Skip even with only one backtrack per advance. -/
theorem cursor_invariant_preserved (l : Lexer) (h : Inv l) :
    Inv (Lexer.Next l).2 ∧
    ((l.eof = true ∨ (0 ≤ l.width ∧ l.start + l.width ≤ l.pos)) → Inv (Lexer.Backup l)) ∧
    Inv (Lexer.Peek l).2 ∧ Inv (Lexer.Skip l) ∧ (∀ t, Inv (Lexer.Emit l t)) ∧
    (∀ msg, Inv (Lexer.Errorf l msg)) ∧
    (∀ s, Inv (l.Accept s).2) ∧ (∀ s, Inv (l.Except s).2) ∧
    (∀ s, Inv (l.AcceptRun s).2) ∧ (∀ s, Inv (l.ExceptRun s).2) ∧
    (∀ sf t emit, Inv (runScan sf l t emit).2) ∧
    (∀ e, Inv (runErrFn e l)) ∧
    (∀ states i eor, Inv (passStates states i eor l)) ∧
    (∀ fuel l2, runLoop fuel l = some l2 → Inv l2) ∧
    (∀ name chunks record l0, NewLexer name chunks record = Except.ok l0 → Inv l0) := by
  refine ⟨(inv_next l h).1, fun hb => inv_backup l ⟨h, hb⟩, inv_peek l h, inv_skip l h,
    fun t => inv_emit l t h, fun msg => inv_errorf l msg h,
    fun s => inv_accept l s h, fun s => inv_except l s h,
    fun s => inv_acceptRun l s h, fun s => inv_exceptRun l s h,
    fun sf t emit => inv_runScan sf l t emit h,
    fun e => inv_runErrFn e l h,
    fun states i eor => inv_passStates states i eor l h,
    fun fuel l2 hl => inv_runLoop fuel l l2 hl h,
    ?_⟩
  intro name chunks record l0 h0
  unfold NewLexer at h0
  split at h0
  · exact absurd h0 (by simp)
  · split at h0
    · exact absurd h0 (by simp)
    · split at h0
      · exact absurd h0 (by simp)
      · rw [← Except.ok.inj h0]
        exact ⟨le_refl _, le_refl _, by simp, by simp⟩

/-- Witness for C6 at the fresh lexer over one byte. -/
theorem cursor_invariant_preserved_witness :
    Inv freshOverA ∧ Inv (Lexer.Next freshOverA).2 := by
  have h : Inv freshOverA := ⟨by decide, by decide, by decide, by decide⟩
  exact ⟨h, (cursor_invariant_preserved freshOverA h).1⟩

/-- C6 counterexample: from the fresh lexer over one byte (where the
invariant holds), the sequence advance, emit, backtrack — a single
backtrack for a single advance — drives the position strictly below
item-start: Emit moved item-start to the position, after which the
backtrack steps the position back past it. -/
theorem backup_after_emit_breaks_invariant :
    ((Lexer.Emit (Lexer.Next freshOverA).2 4).Backup).pos
        < ((Lexer.Emit (Lexer.Next freshOverA).2 4).Backup).start
      ∧ freshOverA.start ≤ freshOverA.pos := by
  decide

theorem skip_out (l : Lexer) : (Lexer.Skip l).out = l.out := by
  dsimp only [Lexer.Skip]
  split <;> rfl

theorem emit_out (l : Lexer) (t : Int) :
    (Lexer.Emit l t).out = l.out
      ++ [⟨t, l.rpos - (l.pos - l.start),
           ItemVal.raw ((l.buf.drop l.start.toNat).take (l.pos - l.start).toNat)⟩] := by
  unfold Lexer.Emit
  rw [skip_out]

/-- Success delta of a scanner over an error-free reader: the emitted
field token alone when emit is set, nothing otherwise. -/
theorem runScan_success_out (sf : ScanFn) (l : Lexer) (t : Int) (emit : Bool)
    (hfree : errFree l) (hok : (runScan sf l t emit).1 = true) :
    (emit = true →
      ∃ ft, (runScan sf l t emit).2.out = l.out ++ [ft] ∧ ft.type = t) ∧
    (emit = false → (runScan sf l t emit).2.out = l.out) := by
  have key : ∀ mid : Lexer, Silent l mid →
      (emit = true → ∃ ft, (if emit then (true, mid.Emit t) else (true, mid.Skip)).2.out
          = l.out ++ [ft] ∧ ft.type = t) ∧
      (emit = false →
        (if emit then (true, mid.Emit t) else (true, mid.Skip)).2.out = l.out) := by
    intro mid hsil
    obtain ⟨ho, _⟩ := hsil hfree
    cases emit with
    | true =>
      exact ⟨fun _ => ⟨_, by rw [if_pos rfl, emit_out, ho], rfl⟩, fun hc => by simp at hc⟩
    | false =>
      exact ⟨fun hc => by simp at hc, fun _ => by rw [if_neg (by simp), skip_out, ho]⟩
  cases sf with
  | accept valid needed =>
    dsimp only [runScan] at hok ⊢
    by_cases hb : (l.Accept valid).1 = true
    · rw [if_pos hb] at hok ⊢
      exact key _ (silent_accept l valid)
    · rw [if_neg hb] at hok
      split at hok <;> simp at hok
  | acceptRun valid needed =>
    dsimp only [runScan] at hok ⊢
    by_cases hb : (l.AcceptRun valid).1 = true
    · rw [if_pos hb] at hok ⊢
      exact key _ (silent_acceptRun l valid)
    · rw [if_neg hb] at hok
      split at hok <;> simp at hok
  | except invalid needed =>
    dsimp only [runScan] at hok ⊢
    by_cases hb : (l.Except invalid).1 = true
    · rw [if_pos hb] at hok ⊢
      exact key _ (silent_except l invalid)
    · rw [if_neg hb] at hok
      split at hok <;> simp at hok
  | exceptRun invalid needed =>
    dsimp only [runScan] at hok ⊢
    by_cases hb : (l.ExceptRun invalid).1 = true
    · rw [if_pos hb] at hok ⊢
      exact key _ (silent_exceptRun l invalid)
    · rw [if_neg hb] at hok
      split at hok <;> simp at hok
  | quote =>
    dsimp only [runScan, Quote] at hok ⊢
    by_cases h34 : (Lexer.Next l).1 ≠ 34
    · rw [if_pos h34] at hok
      simp at hok
    · rw [if_neg h34] at hok ⊢
      have hql : Silent l (quoteLoop (lexFuel (Lexer.Next l).2) (Lexer.Next l).2).2 :=
        Silent.strans (silent_next l) (silent_quoteLoop _ _ (by rw [lexFuel_succ]; omega))
      cases hexit : (quoteLoop (lexFuel (Lexer.Next l).2) (Lexer.Next l).2).1 with
      | newline => simp only [hexit] at hok; simp at hok
      | eofHit => simp only [hexit] at hok; simp at hok
      | closeQuote =>
        simp only [hexit]
        exact key _ hql
  | digits =>
    dsimp only [runScan, Digits, classTail] at hok ⊢
    have hsil : Silent l (scanWhile (lexFuel l) unicodeIsDigit l).2.Backup :=
      Silent.strans (silent_scanWhile unicodeIsDigit _ l (by rw [lexFuel_succ]; omega))
        (silent_backup _)
    by_cases hp : (scanWhile (lexFuel l) unicodeIsDigit l).2.Backup.pos
        > (scanWhile (lexFuel l) unicodeIsDigit l).2.Backup.start
    · rw [if_pos hp] at hok ⊢
      exact key _ hsil
    · rw [if_neg hp] at hok
      simp at hok
  | letters =>
    dsimp only [runScan, Letters, classTail] at hok ⊢
    have hsil : Silent l (scanWhile (lexFuel l) unicodeIsLetter l).2.Backup :=
      Silent.strans (silent_scanWhile unicodeIsLetter _ l (by rw [lexFuel_succ]; omega))
        (silent_backup _)
    by_cases hp : (scanWhile (lexFuel l) unicodeIsLetter l).2.Backup.pos
        > (scanWhile (lexFuel l) unicodeIsLetter l).2.Backup.start
    · rw [if_pos hp] at hok ⊢
      exact key _ hsil
    · rw [if_neg hp] at hok
      simp at hok
  | spaces =>
    dsimp only [runScan, Spaces, classTail] at hok ⊢
    have hsil : Silent l (scanWhile (lexFuel l) unicodeIsSpace l).2.Backup :=
      Silent.strans (silent_scanWhile unicodeIsSpace _ l (by rw [lexFuel_succ]; omega))
        (silent_backup _)
    by_cases hp : (scanWhile (lexFuel l) unicodeIsSpace l).2.Backup.pos
        > (scanWhile (lexFuel l) unicodeIsSpace l).2.Backup.start
    · rw [if_pos hp] at hok ⊢
      exact key _ hsil
    · rw [if_neg hp] at hok
      simp at hok
  | number =>
    dsimp only [runScan, Number] at hok ⊢
    generalize hs1 : l.scanNumber = s1 at hok ⊢
    have h1 : Silent l s1.2 := by rw [← hs1]; exact silent_scanNumber l
    by_cases hb1 : ¬ s1.1 = true
    · rw [if_pos hb1] at hok
      simp at hok
    · rw [if_neg hb1] at hok ⊢
      generalize hpk : s1.2.Peek = pk at hok ⊢
      have h2 : Silent l pk.2 := by rw [← hpk]; exact Silent.strans h1 (silent_peek _)
      by_cases hsn : pk.1 = 43 ∨ pk.1 = 45
      · rw [if_pos hsn] at hok ⊢
        generalize hs2 : pk.2.scanNumber = s2 at hok ⊢
        have h3 : Silent l s2.2 := by rw [← hs2]; exact Silent.strans h2 (silent_scanNumber _)
        by_cases hb2 : ¬ s2.1 = true
            ∨ ¬ (s2.2.buf.getD (s2.2.pos - 1).toNat 0 = 105)
        · rw [if_pos hb2] at hok
          simp at hok
        · rw [if_neg hb2] at hok ⊢
          exact key _ h3
      · rw [if_neg hsn] at hok ⊢
        exact key _ h2

theorem filter_eor_append_none (a d : List Item) (h : ∀ x ∈ d, x.type ≠ ItemEOR) :
    ((a ++ d).filter (fun x => x.type = ItemEOR)).length
      = (a.filter (fun x => x.type = ItemEOR)).length := by
  rw [List.filter_append]
  have hnil : d.filter (fun x => decide (x.type = ItemEOR)) = [] := by
    rw [List.filter_eq_nil_iff]
    intro x hx
    simpa using h x hx
  rw [hnil, List.append_nil]

theorem emit_eor_count (l1 : Lexer) :
    ((Lexer.Emit l1 ItemEOR).out.filter (fun x => x.type = ItemEOR)).length
      = (l1.out.filter (fun x => x.type = ItemEOR)).length + 1 := by
  rw [emit_out, List.filter_append, List.length_append]
  simp

theorem passSuccCount_le :
    ∀ (states : List Binding) (i eor : Nat) (l : Lexer),
      passSuccCount states i eor l ≤ states.length := by
  intro states
  induction states with
  | nil => intro i eor l; exact le_refl _
  | cons b rest ih =>
    intro i eor l
    dsimp only [passSuccCount]
    split
    · have := ih (i + 1) eor (if i = eor ∨ (runScan b.stateFn l b.itemType b.emit).2.eof
        then (runScan b.stateFn l b.itemType b.emit).2.Emit ItemEOR
        else (runScan b.stateFn l b.itemType b.emit).2)
      simpa using Nat.add_le_add_right this 1
    · exact Nat.zero_le _

theorem passCompleted_iff_succ :
    ∀ (states : List Binding) (i eor : Nat) (l : Lexer),
      passCompleted states i eor l = true
        ↔ passSuccCount states i eor l = states.length := by
  intro states
  induction states with
  | nil => intro i eor l; simp [passCompleted, passSuccCount]
  | cons b rest ih =>
    intro i eor l
    dsimp only [passCompleted, passSuccCount]
    split
    · rw [ih]
      simp
    · have := passSuccCount_le rest (i + 1) eor
      simp only [List.length_cons]
      constructor
      · intro hc; exact absurd hc (by simp)
      · intro hc; omega

theorem runScan_eor_count (b : Binding) (l : Lexer) (hk : b.itemType ≠ ItemEOR) :
    (((runScan b.stateFn l b.itemType b.emit).2.out.filter
        (fun x => x.type = ItemEOR)).length)
      = (l.out.filter (fun x => x.type = ItemEOR)).length := by
  obtain ⟨_, _, ⟨d, hd, hdt⟩, _⟩ := evolves_runScan b.stateFn l b.itemType b.emit
  rw [hd]
  refine filter_eor_append_none _ _ ?_
  intro x hx
  rcases hdt x hx with h | h
  · rw [h]; exact hk
  · rw [h]; decide

theorem runErrFn_eor_count (e : ErrFn) (l : Lexer) :
    ((runErrFn e l).out.filter (fun x => x.type = ItemEOR)).length
      = (l.out.filter (fun x => x.type = ItemEOR)).length := by
  obtain ⟨_, _, ⟨d, hd, hdt⟩, _⟩ := evolves_runErrFn e l
  rw [hd]
  refine filter_eor_append_none _ _ ?_
  intro x hx
  rw [hdt x hx]
  decide

theorem pass_eor_count :
    ∀ (states : List Binding) (i eor : Nat) (l : Lexer),
      (∀ b ∈ states, b.itemType ≠ ItemEOR) →
      (passStates states i eor l).eof = false →
      ((passStates states i eor l).out.filter (fun x => x.type = ItemEOR)).length
        = (l.out.filter (fun x => x.type = ItemEOR)).length
          + (if i ≤ eor ∧ eor < i + passSuccCount states i eor l then 1 else 0) := by
  intro states
  induction states with
  | nil =>
    intro i eor l hk he
    dsimp only [passStates, passSuccCount]
    rw [if_neg (by omega)]
    omega
  | cons b rest ih =>
    intro i eor l hk he
    dsimp only [passStates, passSuccCount] at he ⊢
    by_cases hs : (runScan b.stateFn l b.itemType b.emit).1 = true
    · rw [if_pos hs] at he
      rw [if_pos hs, if_pos hs]
      have hcount1 := runScan_eor_count b l (hk b (List.mem_cons_self _ _))
      have hl1eof : (runScan b.stateFn l b.itemType b.emit).2.eof = false := by
        by_contra hcon
        have h1 : (runScan b.stateFn l b.itemType b.emit).2.eof = true := by
          simpa using hcon
        have h2 : (if i = eor ∨ (runScan b.stateFn l b.itemType b.emit).2.eof
            then (runScan b.stateFn l b.itemType b.emit).2.Emit ItemEOR
            else (runScan b.stateFn l b.itemType b.emit).2).eof = true := by
          split
          · exact (evolves_emit _ ItemEOR).2.1 h1
          · exact h1
        have h3 := (evolves_passStates rest (i + 1) eor _).2.1 h2
        rw [he] at h3
        exact Bool.false_ne_true h3
      rw [hl1eof] at he ⊢
      by_cases hieor : i = eor
      · rw [if_pos (by simp [hieor])] at he ⊢
        have hrec := ih (i + 1) eor ((runScan b.stateFn l b.itemType b.emit).2.Emit ItemEOR)
          (fun b2 hb2 => hk b2 (List.mem_cons_of_mem _ hb2)) he
        have hle := passSuccCount_le rest (i + 1) eor
          ((runScan b.stateFn l b.itemType b.emit).2.Emit ItemEOR)
        rw [hrec, emit_eor_count, hcount1]
        rw [if_neg (show ¬ (i + 1 ≤ eor ∧ eor < i + 1 + passSuccCount rest (i + 1) eor
          ((runScan b.stateFn l b.itemType b.emit).2.Emit ItemEOR)) by omega)]
        rw [if_pos (show i ≤ eor ∧ eor < i + (passSuccCount rest (i + 1) eor
          ((runScan b.stateFn l b.itemType b.emit).2.Emit ItemEOR) + 1) by omega)]
      · rw [if_neg (by simp [hieor])] at he ⊢
        have hrec := ih (i + 1) eor (runScan b.stateFn l b.itemType b.emit).2
          (fun b2 hb2 => hk b2 (List.mem_cons_of_mem _ hb2)) he
        rw [hrec, hcount1]
        by_cases hcond : i + 1 ≤ eor ∧ eor < i + 1 + passSuccCount rest (i + 1) eor
            (runScan b.stateFn l b.itemType b.emit).2
        · rw [if_pos hcond, if_pos (show i ≤ eor ∧ eor < i + (passSuccCount rest (i + 1) eor
            (runScan b.stateFn l b.itemType b.emit).2 + 1) by omega)]
        · rw [if_neg hcond, if_neg (show ¬ (i ≤ eor ∧ eor < i + (passSuccCount rest (i + 1) eor
            (runScan b.stateFn l b.itemType b.emit).2 + 1)) by omega)]
    · rw [if_neg hs] at he
      rw [if_neg hs, if_neg hs]
      have hcount1 := runScan_eor_count b l (hk b (List.mem_cons_self _ _))
      rw [if_neg (by omega)]
      split
      · rw [runErrFn_eor_count, hcount1]
        omega
      · rw [hcount1]
        omega

theorem pass_ends_eor :
    ∀ (states : List Binding) (i eor : Nat) (l : Lexer), states ≠ [] →
      eor = i + states.length - 1 →
      passCompleted states i eor l = true →
      ∃ pre e, (passStates states i eor l).out = pre ++ [e] ∧ e.type = ItemEOR := by
  intro states
  induction states with
  | nil => intro i eor l hne; exact absurd rfl hne
  | cons b rest ih =>
    intro i eor l _ heor hc
    dsimp only [passStates, passCompleted] at hc ⊢
    by_cases hs : (runScan b.stateFn l b.itemType b.emit).1 = true
    · rw [if_pos hs] at hc ⊢
      cases rest with
      | nil =>
        have hieor : i = eor := by
          simp only [List.length_cons, List.length_nil] at heor
          omega
        rw [if_pos (Or.inl hieor)]
        dsimp only [passStates]
        exact ⟨(runScan b.stateFn l b.itemType b.emit).2.out, _, emit_out _ ItemEOR, rfl⟩
      | cons b2 rest2 =>
        refine ih (i + 1) eor _ (by simp) ?_ hc
        simp only [List.length_cons] at heor ⊢
        omega
    · rw [if_neg hs] at hc
      exact absurd hc (by simp)

theorem runLoop_terminal :
    ∀ (fuel : Nat) (l l2 : Lexer), runLoop fuel l = some l2 →
      (∀ b ∈ l.record.states, b.itemType ≠ ItemEOF) →
      (∀ x ∈ l.out, x.type ≠ ItemEOF) →
      ∃ pre e, l2.out = pre ++ [e] ∧ e.type = ItemEOF ∧ ∀ x ∈ pre, x.type ≠ ItemEOF := by
  intro fuel
  induction fuel with
  | zero => intro l l2 h; exact absurd h (by simp [runLoop])
  | succ fuel ih =>
    intro l l2 h hk hout
    dsimp only [runLoop] at h
    obtain ⟨hrecP, _, ⟨d1, hd1, ht1⟩, _⟩ :=
      evolves_passStates l.record.states 0 (l.record.states.length - 1) l
    obtain ⟨hrecQ, _, ⟨d2, hd2, ht2⟩, _⟩ :=
      evolves_peek (passStates l.record.states 0 (l.record.states.length - 1) l)
    have hall : ∀ x ∈ (passStates l.record.states 0
        (l.record.states.length - 1) l).Peek.2.out, x.type ≠ ItemEOF := by
      intro x hx
      rw [hd2, hd1] at hx
      rcases List.mem_append.mp hx with hx | hx
      · rcases List.mem_append.mp hx with hx | hx
        · exact hout x hx
        · rcases ht1 x hx with ⟨b, hb, hxb⟩ | hx0 | hx1
          · rw [hxb]; exact hk b hb
          · rw [hx0]; decide
          · rw [hx1]; decide
      · rw [ht2 x hx]; decide
    split at h
    · rw [← Option.some_inj.mp h, emit_out]
      exact ⟨_, _, rfl, rfl, hall⟩
    · refine ih _ _ h ?_ hall
      intro b hb
      rw [hrecQ, hrecP] at hb
      exact hk b hb

/-- C1 amended: (1) whenever the driver loop terminates, the stream
ends with exactly one end-of-input token, after which nothing follows
and before which the end-of-input kind never occurs (for record shapes
whose declared kinds avoid the reserved end-of-input kind); (2) in a
driver pass that does not reach end of input, the end-of-record kind is
emitted exactly once when the record completes and not at all when an
error-recovery cycle abandons it — but when end of input is reached
mid-record, an end-of-record token is also emitted after each further
successful field step, so it is not in general once per completed
record; (3) a completed pass ends with the end-of-record token,
immediately after whatever its last field step sent. -/
theorem driver_token_structure :
    (∀ (fuel : Nat) (l l2 : Lexer), runLoop fuel l = some l2 →
      (∀ b ∈ l.record.states, b.itemType ≠ ItemEOF) →
      (∀ x ∈ l.out, x.type ≠ ItemEOF) →
      ∃ pre e, l2.out = pre ++ [e] ∧ e.type = ItemEOF ∧ ∀ x ∈ pre, x.type ≠ ItemEOF) ∧
    (∀ (states : List Binding) (l : Lexer), states ≠ [] →
      (∀ b ∈ states, b.itemType ≠ ItemEOR) →
      (passStates states 0 (states.length - 1) l).eof = false →
      ((passStates states 0 (states.length - 1) l).out.filter
          (fun x => x.type = ItemEOR)).length
        = (l.out.filter (fun x => x.type = ItemEOR)).length
          + (if passCompleted states 0 (states.length - 1) l then 1 else 0)) ∧
    (∀ (states : List Binding) (l : Lexer), states ≠ [] →
      passCompleted states 0 (states.length - 1) l = true →
      ∃ pre e, (passStates states 0 (states.length - 1) l).out = pre ++ [e]
        ∧ e.type = ItemEOR) := by
  refine ⟨runLoop_terminal, ?_, ?_⟩
  · intro states l hne hk he
    rw [pass_eor_count states 0 (states.length - 1) l hk he]
    have hlen : 0 < states.length := List.length_pos.mpr hne
    have hle := passSuccCount_le states 0 (states.length - 1) l
    congr 1
    by_cases hc : passCompleted states 0 (states.length - 1) l = true
    · have hsucc := (passCompleted_iff_succ states 0 (states.length - 1) l).mp hc
      rw [if_pos (by omega), if_pos hc]
    · have hsucc : passSuccCount states 0 (states.length - 1) l ≠ states.length :=
        fun hx => hc ((passCompleted_iff_succ states 0 (states.length - 1) l).mpr hx)
      rw [if_neg (by omega), if_neg hc]
  · intro states l hne hc
    exact pass_ends_eor states 0 (states.length - 1) l hne (by omega) hc

/-- Single-byte-per-read reader delivering 0x61 then 0x0A. -/
def wInit : Lexer :=
  ⟨"w", [ReadResult.bytes [97], ReadResult.bytes [10]], okRecord, [], false, [], 0, 0, 0, 0, 0⟩

/-- Witness for C1 at a completing single-field pass over 0x61 0x0A:
one end-of-record token is added. -/
theorem driver_token_structure_witness :
    ((passStates okRecord.states 0 (okRecord.states.length - 1) wInit).out.filter
        (fun x => x.type = ItemEOR)).length
      = (wInit.out.filter (fun x => x.type = ItemEOR)).length
        + (if passCompleted okRecord.states 0 (okRecord.states.length - 1) wInit
           then 1 else 0) :=
  driver_token_structure.2.1 okRecord.states wInit (by decide) (by decide) (by decide)

/-- Two-field record shape: a run of 0x61 then a run of 0x62, with the
standard separator recovery. -/
def twoFieldRecord : Record :=
  ⟨1, [⟨4, ScanFn.acceptRun "a" true, true⟩, ⟨5, ScanFn.acceptRun "b" true, true⟩],
   some (ErrFn.skipPast "\n")⟩

/-- Initial lexer over the single byte 0x61 for the two-field shape. -/
def twoFieldInit : Lexer :=
  ⟨"t", [ReadResult.bytes [97]], twoFieldRecord, [], false, [], 0, 0, 0, 0, 0⟩

/-- C1 counterexample: with a two-field record and the one-byte input
0x61, the first field succeeds while reaching end of input, so the
driver emits an end-of-record token right after the first field's token
although the record is never completed (the second field then fails and
is abandoned by recovery): the stream contains one end-of-record token
but zero completed records, and the end-of-record token is followed by
the error token, not preceded by a last field's token. -/
theorem eor_without_completed_record :
    (∃ msg, lexAll 3 "t" [ReadResult.bytes [97]] twoFieldRecord
      = some [⟨4, 0, ItemVal.raw [97]⟩, ⟨ItemEOR, 1, ItemVal.raw []⟩,
              ⟨ItemError, 1, ItemVal.str msg⟩, ⟨ItemEOF, 1, ItemVal.raw []⟩]) ∧
    passCompleted twoFieldRecord.states 0 1 twoFieldInit = false := by
  exact ⟨⟨"expected a run of characters from the set \x22b\x22, got %!q(int32=-1)",
    by decide⟩, by decide⟩

/-! Absolute positions (C4).  The overall input stream is the
concatenation of the bytes the reader delivers; a lexer state
corresponds to that stream when rpos - pos is the absolute offset of the
first buffered byte and the unconsumed input equals the buffer followed
by the unread chunks.  Every cursor operation preserves the
correspondence, so tokens reported by Emit carry the absolute offset of
their first byte. -/

/-- Bytes delivered by a chunk list, each read clipped to the
Buflen-sized staging buffer exactly as readChunk clips it; end-of-source
signals and read errors deliver no bytes. -/
def chunksBytes (B : Int) : List ReadResult → List Nat
  | [] => []
  | ReadResult.bytes bs :: rest => bs.take B.toNat ++ chunksBytes B rest
  | ReadResult.eofSig :: rest => chunksBytes B rest
  | ReadResult.readErr _ :: rest => chunksBytes B rest

/-- Correspondence between a lexer state and the overall input stream:
rpos - pos is the (nonnegative) absolute offset of the first buffered
byte, and the input from that offset on is the buffer followed by the
bytes still to be read. -/
def Corr (input : List Nat) (l : Lexer) : Prop :=
  0 ≤ l.rpos - l.pos ∧
    input.drop (l.rpos - l.pos).toNat = l.buf ++ chunksBytes l.record.buflen l.chunks

/-- A token position is absolute: a raw-valued item carries a
nonnegative position and its bytes are exactly the input bytes starting
at that offset. -/
def ItemAbs (input : List Nat) (it : Item) : Prop :=
  ∀ bs, it.value = ItemVal.raw bs →
    0 ≤ it.pos ∧ bs = (input.drop it.pos.toNat).take bs.length

/-- All raw-valued items of a stream carry absolute positions. -/
def ItemsOK (input : List Nat) (out : List Item) : Prop :=
  ∀ it ∈ out, ItemAbs input it

theorem corr_readChunk (input : List Nat) (l : Lexer) (h : Corr input l) :
    Corr input l.readChunk := by
  obtain ⟨h1, h2⟩ := h
  rcases hc : l.chunks with _ | ⟨c, rest⟩
  · simpa [Lexer.readChunk, hc] using ⟨h1, h2⟩
  · rw [hc] at h2
    cases c with
    | bytes bs =>
      refine ⟨?_, ?_⟩ <;> simp only [Lexer.readChunk, hc]
      · exact h1
      · rw [h2]
        simp only [chunksBytes, List.append_assoc]
    | eofSig =>
      refine ⟨?_, ?_⟩ <;> simp only [Lexer.readChunk, hc]
      · exact h1
      · rw [h2]
        simp only [chunksBytes]
    | readErr m =>
      refine ⟨?_, ?_⟩ <;> simp only [Lexer.readChunk, hc]
      · exact h1
      · rw [h2]
        simp only [chunksBytes]

theorem corr_decodeStep (input : List Nat) (l1 : Lexer) (h : Corr input l1) :
    Corr input (l1.decodeStep).2 := by
  obtain ⟨h1, h2⟩ := h
  rcases hd : l1.buf.drop l1.pos.toNat with _ | ⟨b0, t⟩
  · rw [decodeStep_eof_branch l1 hd]
    exact ⟨h1, h2⟩
  · rw [decodeStep_decode_branch l1 b0 t hd]
    refine ⟨by dsimp only; omega, ?_⟩
    dsimp only
    have he : l1.rpos + (decodeRune (b0 :: t)).2 - (l1.pos + (decodeRune (b0 :: t)).2)
        = l1.rpos - l1.pos := by ring
    rw [he]
    exact h2

theorem corr_next (input : List Nat) (l : Lexer) (h : Corr input l) :
    Corr input (Lexer.Next l).2 := by
  rw [next_eq_refill]
  refine corr_decodeStep input _ ?_
  split
  · exact corr_readChunk input l h
  · exact h

theorem corr_backup (input : List Nat) (l : Lexer) (h : Corr input l) :
    Corr input (Lexer.Backup l) := by
  obtain ⟨h1, h2⟩ := h
  by_cases he : l.eof = true
  · rw [backup_eof_id l he]
    exact ⟨h1, h2⟩
  · rw [backup_not_eof l (by simpa using he)]
    refine ⟨by dsimp only; omega, ?_⟩
    dsimp only
    have hw : l.rpos - l.width - (l.pos - l.width) = l.rpos - l.pos := by ring
    rw [hw]
    exact h2

theorem corr_errorf (input : List Nat) (l : Lexer) (msg : String) (h : Corr input l) :
    Corr input (l.Errorf msg) := h

theorem corr_skip (input : List Nat) (l : Lexer) (hinv : Inv l) (h : Corr input l) :
    Corr input (Lexer.Skip l) := by
  obtain ⟨hs0, hsp, hpl, _⟩ := hinv
  obtain ⟨h1, h2⟩ := h
  dsimp only [Lexer.Skip]
  split
  · refine ⟨by dsimp only; omega, ?_⟩
    dsimp only
    have hd : (l.rpos - 0).toNat = (l.rpos - l.pos).toNat + l.pos.toNat := by omega
    rw [hd, ← List.drop_drop, h2,
      List.drop_append_of_le_length (by omega : l.pos.toNat ≤ l.buf.length)]
  · exact ⟨h1, h2⟩

theorem corr_emit (input : List Nat) (l : Lexer) (t : Int) (hinv : Inv l)
    (h : Corr input l) : Corr input (Lexer.Emit l t) :=
  corr_skip input _ hinv h

theorem itemsOK_decodeStep (input : List Nat) (l1 : Lexer)
    (h : ItemsOK input l1.out) : ItemsOK input (l1.decodeStep).2.out := by
  rcases hd : l1.buf.drop l1.pos.toNat with _ | ⟨b0, t⟩
  · rw [decodeStep_eof_branch l1 hd]
    exact h
  · rw [decodeStep_decode_branch l1 b0 t hd]
    exact h

theorem itemsOK_next (input : List Nat) (l : Lexer) (h : ItemsOK input l.out) :
    ItemsOK input (Lexer.Next l).2.out := by
  rw [next_eq_refill]
  refine itemsOK_decodeStep input _ ?_
  split
  · rcases hc : l.chunks with _ | ⟨c, rest⟩
    · simpa [Lexer.readChunk, hc] using h
    · cases c with
      | bytes bs =>
        simp only [Lexer.readChunk, hc]
        exact h
      | eofSig =>
        simp only [Lexer.readChunk, hc]
        exact h
      | readErr m =>
        simp only [Lexer.readChunk, hc]
        intro it hit
        rcases List.mem_append.mp hit with hmem | hmem
        · exact h it hmem
        · rcases List.mem_singleton.mp hmem with rfl
          intro bs hbs
          exact absurd (show ItemVal.str (l.name ++ ": " ++ m) = ItemVal.raw bs from hbs)
            (by simp)
  · exact h

theorem itemsOK_backup (input : List Nat) (l : Lexer) (h : ItemsOK input l.out) :
    ItemsOK input (Lexer.Backup l).out := by
  by_cases he : l.eof = true
  · rw [backup_eof_id l he]
    exact h
  · rw [backup_not_eof l (by simpa using he)]
    exact h

theorem itemsOK_skip (input : List Nat) (l : Lexer) (h : ItemsOK input l.out) :
    ItemsOK input (Lexer.Skip l).out := by
  rw [skip_out]
  exact h

theorem itemsOK_errorf (input : List Nat) (l : Lexer) (msg : String)
    (h : ItemsOK input l.out) : ItemsOK input (l.Errorf msg).out := by
  rw [errorf_out]
  intro it hit
  rcases List.mem_append.mp hit with hmem | hmem
  · exact h it hmem
  · rcases List.mem_singleton.mp hmem with rfl
    intro bs hbs
    exact absurd (show ItemVal.str msg = ItemVal.raw bs from hbs) (by simp)

theorem itemsOK_emit (input : List Nat) (l : Lexer) (t : Int)
    (hinv : Inv l) (hc : Corr input l) (h : ItemsOK input l.out) :
    ItemsOK input (Lexer.Emit l t).out := by
  rw [emit_out]
  intro it hit
  rcases List.mem_append.mp hit with hmem | hmem
  · exact h it hmem
  · obtain ⟨h1, h2, h3, h4⟩ := hinv
    obtain ⟨hc1, hc2⟩ := hc
    rcases List.mem_singleton.mp hmem with rfl
    intro bs hbs
    have hbs2 : ItemVal.raw ((l.buf.drop l.start.toNat).take (l.pos - l.start).toNat)
        = ItemVal.raw bs := hbs
    injection hbs2 with hbs3
    subst hbs3
    refine ⟨by dsimp only; omega, ?_⟩
    dsimp only
    have hvlen : ((l.buf.drop l.start.toNat).take (l.pos - l.start).toNat).length
        = (l.pos - l.start).toNat := by
      simp only [List.length_take, List.length_drop]
      omega
    have hd : (l.rpos - (l.pos - l.start)).toNat
        = (l.rpos - l.pos).toNat + l.start.toNat := by omega
    rw [hvlen, hd, ← List.drop_drop, hc2,
      List.drop_append_of_le_length (by omega : l.start.toNat ≤ l.buf.length),
      List.take_append_of_le_length (by simp only [List.length_drop]; omega)]

/-- Cursor operations a scanner may perform between token emissions:
consuming a rune, backtracking it, and discarding or reporting the
current span.  Accept, AcceptRun, Peek and the rest are compositions of
these four together with Errorf. -/
inductive CursorOp where
  | next
  | backup
  | skip
  | emit (t : Int)
  | errorf (msg : String)
deriving DecidableEq, Repr

def applyOp (l : Lexer) : CursorOp → Lexer
  | CursorOp.next => (Lexer.Next l).2
  | CursorOp.backup => Lexer.Backup l
  | CursorOp.skip => Lexer.Skip l
  | CursorOp.emit t => Lexer.Emit l t
  | CursorOp.errorf msg => l.Errorf msg

def applyOps (ops : List CursorOp) (l : Lexer) : Lexer :=
  ops.foldl applyOp l

/-- Legality of one operation: a Backup must still compensate the last
advance (it is the step the package itself only takes right after a
Next; on other states the Go code crosses buf slice bounds at the next
Emit). -/
def opLegal (l : Lexer) : CursorOp → Bool
  | CursorOp.backup => l.eof || decide (0 ≤ l.width ∧ l.start + l.width ≤ l.pos)
  | _ => true

def opsLegal : List CursorOp → Lexer → Bool
  | [], _ => true
  | op :: ops, l => opLegal l op && opsLegal ops (applyOp l op)

theorem cursorStep_ok (input : List Nat) (l : Lexer) (op : CursorOp)
    (hleg : opLegal l op = true)
    (h : Inv l ∧ Corr input l ∧ ItemsOK input l.out) :
    Inv (applyOp l op) ∧ Corr input (applyOp l op) ∧ ItemsOK input (applyOp l op).out := by
  obtain ⟨hinv, hcorr, hok⟩ := h
  cases op with
  | next =>
    exact ⟨(inv_next l hinv).1, corr_next input l hcorr, itemsOK_next input l hok⟩
  | backup =>
    have hb : l.eof = true ∨ (0 ≤ l.width ∧ l.start + l.width ≤ l.pos) := by
      simp only [opLegal, Bool.or_eq_true, decide_eq_true_eq] at hleg
      exact hleg
    exact ⟨inv_backup l ⟨hinv, hb⟩, corr_backup input l hcorr, itemsOK_backup input l hok⟩
  | skip =>
    exact ⟨inv_skip l hinv, corr_skip input l hinv hcorr, itemsOK_skip input l hok⟩
  | emit t =>
    exact ⟨inv_emit l t hinv, corr_emit input l t hinv hcorr,
      itemsOK_emit input l t hinv hcorr hok⟩
  | errorf msg =>
    exact ⟨inv_errorf l msg hinv, corr_errorf input l msg hcorr,
      itemsOK_errorf input l msg hok⟩

theorem opsLegal_ok (input : List Nat) :
    ∀ (ops : List CursorOp) (l : Lexer), opsLegal ops l = true →
      Inv l ∧ Corr input l ∧ ItemsOK input l.out →
      Inv (applyOps ops l) ∧ Corr input (applyOps ops l)
        ∧ ItemsOK input (applyOps ops l).out := by
  intro ops
  induction ops with
  | nil => exact fun l _ h => h
  | cons op ops ih =>
    intro l hleg h
    simp only [opsLegal, Bool.and_eq_true] at hleg
    exact ih (applyOp l op) hleg.2 (cursorStep_ok input l op hleg.1 h)

/-- C4: for every input and every raw-valued token a legal sequence of
cursor operations emits, the token's reported position is the absolute
byte offset of the token's first byte within the overall input stream
(its bytes are the input bytes starting at that offset), regardless of
how often Next refilled the buffer or Skip compacted it beforehand. -/
theorem emit_positions_absolute (name : String) (chunks : List ReadResult)
    (record : Record) (ops : List CursorOp) (l0 : Lexer)
    (hnew : NewLexer name chunks record = Except.ok l0)
    (hleg : opsLegal ops l0 = true) :
    ∀ it ∈ (applyOps ops l0).out, ∀ bs, it.value = ItemVal.raw bs →
      0 ≤ it.pos ∧
        bs = ((chunksBytes record.buflen chunks).drop it.pos.toNat).take bs.length := by
  unfold NewLexer at hnew
  split at hnew
  · exact absurd hnew (by simp)
  · split at hnew
    · exact absurd hnew (by simp)
    · split at hnew
      · exact absurd hnew (by simp)
      · injection hnew with hinit
        subst hinit
        exact (opsLegal_ok (chunksBytes record.buflen chunks) ops _ hleg
          ⟨⟨le_refl _, le_refl _, by simp, by simp⟩,
           ⟨by simp, by simp⟩,
           fun it hit => absurd hit (List.not_mem_nil it)⟩).2.2

/-- Witness for C4 at the fresh lexer over the single byte 0x61: one
Next (which refills the empty buffer) followed by an Emit yields the
token at absolute offset 0 carrying that byte. -/
theorem emit_positions_absolute_witness :
    NewLexer "w" [ReadResult.bytes [97]] okRecord = Except.ok freshOverA ∧
    opsLegal [CursorOp.next, CursorOp.emit 4] freshOverA = true ∧
    (0 ≤ (0 : Int) ∧
      [97] = ((chunksBytes okRecord.buflen [ReadResult.bytes [97]]).drop
        (0 : Int).toNat).take [97].length) :=
  ⟨rfl, rfl,
    emit_positions_absolute "w" [ReadResult.bytes [97]] okRecord
      [CursorOp.next, CursorOp.emit 4] freshOverA rfl rfl
      ⟨4, 0, ItemVal.raw [97]⟩ (by decide) [97] rfl⟩

end Lexrec
